import Mathlib

set_option linter.unusedVariables false

/-!
Verification of the lexer, parser and pipeline-driver logic of `shell.cpp`
(pingiun/Shell, a small interactive command shell).

The C++ code is shallowly embedded: `std::string` becomes `List Char`,
`std::vector<Token *>` becomes `List Token`, the recursive `Command` struct
becomes an inductive type, and the decision-relevant pure parts of the
process-launching driver (which file the drain opens and with which flags,
and whether the driver waits) are recorded as pure functions on `Command`.

Two places in the C++ read an element of an empty container:
`buildToken` reads `input.front()` after a `'>'` without checking for end of
input, and `buildCommands` reads `tokens.front()` of an empty vector when a
stage's trailing token is an identifier.  Both reads are modelled by the
behaviour the deployed standard library exhibits (the string's NUL
terminator, respectively the erased element still sitting in the vector's
buffer), and instrumented variants additionally record that such a read
happened, so that the safety claims about them can be settled.
-/

abbrev Str := List Char

/-- `enum TokenId` (shell.cpp, lines 42-50). -/
inductive TokenId where
  | IDENT | PIPE | REDIR_IN | REDIR_OUT | APPEND_OUT | BG | END
deriving DecidableEq

/-- `struct Token` (lines 55-109): a token id plus the optional payload
(`std::string *str`, null for tokens built by `Token::make`). -/
structure Token where
  token_id : TokenId
  str : Option Str
deriving DecidableEq

/-- `Token::make` (lines 74-76): a token without payload. -/
def Token.make (i : TokenId) : Token := ⟨i, none⟩

/-- `Token::makeIdent` (lines 83-85): an identifier token with payload. -/
def Token.makeIdent (s : Str) : Token := ⟨TokenId.IDENT, some s⟩

/-- `Token::operator==` (lines 87-96), translated branch by branch:
if the left payload pointer is null the ids must agree and the right payload
must be null too; otherwise, if the right payload is null only the ids are
compared; otherwise ids and payload contents are compared. -/
def tokenEq (a rhs : Token) : Bool :=
  match a.str with
  | none => decide (a.token_id = rhs.token_id) && rhs.str.isNone
  | some s =>
    match rhs.str with
    | none => decide (a.token_id = rhs.token_id)
    | some t => decide (a.token_id = rhs.token_id) && decide (s = t)

/-- Membership in the separator set of `input.find_first_of(" ><|&")`
(line 140); these are also exactly the characters the `switch` of
`buildToken` treats specially. -/
def specialChar (c : Char) : Bool :=
  c = ' ' || c = '>' || c = '<' || c = '|' || c = '&'

/-- `buildToken` (lines 114-151): consume one token's worth of characters.
The `'>'` arm models `input.front() == '>'` on an empty remainder as the
NUL terminator read the deployed `std::string` yields, i.e. not `'>'`,
so a trailing lone `'>'` produces `REDIR_OUT`. -/
def buildToken : Str → Token × Str
  | [] => (Token.make TokenId.END, [])
  | c :: input =>
    if c = ' ' then buildToken input
    else if c = '>' then
      if input.head? = some '>' then (Token.make TokenId.APPEND_OUT, input.tail)
      else (Token.make TokenId.REDIR_OUT, input)
    else if c = '<' then (Token.make TokenId.REDIR_IN, input)
    else if c = '|' then (Token.make TokenId.PIPE, input)
    else if c = '&' then (Token.make TokenId.BG, input)
    else
      (Token.makeIdent (c :: input.takeWhile (fun d => !specialChar d)),
       input.dropWhile (fun d => !specialChar d))

/-- `buildToken`, instrumented: the extra Bool records whether line 125
(`if (input.front() == '>')`) read `front()` of an already empty string,
which the C++ standard leaves undefined for `std::string::front`. -/
def buildTokenI : Str → Token × Str × Bool
  | [] => (Token.make TokenId.END, [], false)
  | c :: input =>
    if c = ' ' then buildTokenI input
    else if c = '>' then
      if input.head? = some '>' then (Token.make TokenId.APPEND_OUT, input.tail, false)
      else (Token.make TokenId.REDIR_OUT, input, input.isEmpty)
    else if c = '<' then (Token.make TokenId.REDIR_IN, input, false)
    else if c = '|' then (Token.make TokenId.PIPE, input, false)
    else if c = '&' then (Token.make TokenId.BG, input, false)
    else
      (Token.makeIdent (c :: input.takeWhile (fun d => !specialChar d)),
       input.dropWhile (fun d => !specialChar d), false)

/-- `tokenList` (lines 250-259): repeatedly call the lexer, collecting
tokens until `END` is produced (the `END` token itself is not appended). -/
def tokenList (commandLine : Str) : List Token :=
  match h : buildToken commandLine with
  | (cur_token, rest) =>
    if hEnd : cur_token.token_id = TokenId.END then []
    else cur_token :: tokenList rest
termination_by commandLine.length
decreasing_by
  have hdw : ∀ (p : Char → Bool) (l : Str), (l.dropWhile p).length ≤ l.length := by
    intro p l
    induction l with
    | nil => simp [List.dropWhile]
    | cons a l ih =>
      by_cases hp : p a
      · simp only [List.dropWhile, hp]
        exact Nat.le_succ_of_le ih
      · simp only [List.dropWhile, hp]
        simp
  have prog : ∀ s : Str, s ≠ [] → (buildToken s).2.length < s.length := by
    intro s
    induction s with
    | nil => intro hc; exact absurd rfl hc
    | cons c input ih =>
      intro _
      simp only [buildToken]
      split_ifs with h1 h2 h3 h4 h5 h6
      · rcases Decidable.em (input = []) with hi | hi
        · subst hi; simp [buildToken]
        · exact Nat.lt_succ_of_lt (ih hi)
      · dsimp only
        simp only [List.length_cons, List.length_tail]
        omega
      · dsimp only
        simp only [List.length_cons]
        omega
      · simp
      · simp
      · simp
      · exact Nat.lt_succ_of_le (hdw _ _)
  have hne : commandLine ≠ [] := by
    intro he
    subst he
    rw [show buildToken [] = (Token.make TokenId.END, []) from rfl] at h
    cases h
    exact hEnd rfl
  have hlt := prog commandLine hne
  rw [h] at hlt
  simpa using hlt

/-- `struct Command` (lines 191-243).  The constructor (line 204) initializes
`command`, `args`, `bg`, `redir_in`, `redir_out` and `pipe_to` but NOT
`append`, which is therefore indeterminate; the model threads the
indeterminate initial value in explicitly (see `Command.init`). -/
inductive Command where
  | mk (command : Option Str) (args : Option (List (Option Str)))
       (bg : Bool) (append : Bool)
       (redir_in : Option Str) (redir_out : Option Str)
       (pipe_to : Option Command) : Command

def Command.command : Command → Option Str
  | .mk c _ _ _ _ _ _ => c

def Command.args : Command → Option (List (Option Str))
  | .mk _ a _ _ _ _ _ => a

def Command.bg : Command → Bool
  | .mk _ _ b _ _ _ _ => b

def Command.append : Command → Bool
  | .mk _ _ _ ap _ _ _ => ap

def Command.redir_in : Command → Option Str
  | .mk _ _ _ _ ri _ _ => ri

def Command.redir_out : Command → Option Str
  | .mk _ _ _ _ _ ro _ => ro

def Command.pipe_to : Command → Option Command
  | .mk _ _ _ _ _ _ p => p

/-- `command->bg = true` (line 279). -/
def Command.setBg : Command → Command
  | .mk c a _ ap ri ro p => .mk c a true ap ri ro p

/-- `command->append = true` (line 294). -/
def Command.setAppend : Command → Command
  | .mk c a b _ ri ro p => .mk c a b true ri ro p

/-- `command->redir_in = ...` (line 289). -/
def Command.setRedirIn : Command → Option Str → Command
  | .mk c a b ap _ ro p, f => .mk c a b ap f ro p

/-- `command->redir_out = ...` (line 305). -/
def Command.setRedirOut : Command → Option Str → Command
  | .mk c a b ap ri _ p, f => .mk c a b ap ri f p

/-- `command->command = ...; command->args = args` (lines 319, 330). -/
def Command.setProgArgs : Command → Option Str → List (Option Str) → Command
  | .mk _ _ b ap ri ro p, prog, newArgs => .mk prog (some newArgs) b ap ri ro p

/-- `command->pipe_to = ...` (line 310). -/
def Command.setPipe : Command → Command → Command
  | .mk c a b ap ri ro _, sub => .mk c a b ap ri ro (some sub)

/-- `new Command` (line 270) with the C++ default constructor (line 204);
`ia` is the indeterminate initial value of the never-initialized `append`
member. -/
def Command.init (ia : Bool) : Command :=
  .mk none none false ia none none none

/-- `peek->get_id() == TokenId::IDENT` style checks, as a Bool. -/
def isIdentTok (t : Token) : Bool := decide (t.token_id = TokenId.IDENT)

/-- `tokens.front()` with the observed behaviour on an emptied vector:
`erase(begin())` leaves the erased element in the buffer, so `front()` of
an empty vector that just lost its last element yields that element
(`stale`).  All `front()` calls of `buildCommands` that can hit an empty
vector happen right after such an erase. -/
def frontStale : List Token → Token → Token
  | [], stale => stale
  | t :: _, _ => t

/-- The argument-collection loop of `buildCommands` (lines 322-329):
`while (peek->get_id() == IDENT) { if (tokens.empty()) break;
tokens.erase(begin); args.push_back(peek->get_str()); peek = tokens.front(); }`.
At each call, `peek` equals `frontStale tokens stale` for the token `stale`
erased most recently.  Returns the collected argument payloads, the
remaining token vector, and whether `tokens.front()` was read on an empty
vector. -/
def argLoop : List Token → Token → List (Option Str) × List Token × Bool
  | tokens, peek =>
    if isIdentTok peek then
      match tokens with
      | [] => ([], [], false)
      | t :: rest =>
        let r := argLoop rest (frontStale rest t)
        (t.str :: r.1, r.2.1, (rest.isEmpty || r.2.2))
    else ([], tokens, false)

/-- The `for (;;)` loop of `buildCommands` (lines 276-342), entered with the
current token already popped off the vector; here the current token is kept
as the head of `tokens`.  The `PIPE` arm inlines the entry test of the
recursive `buildCommands(tokens)` call (lines 266-274).  The Bool result
records whether `tokens.front()` was ever read on an empty vector. -/
def loopGo (ia : Bool) (cmd : Command) (tokens : List Token) :
    Option Command × Bool :=
  match tokens with
  | [] =>
    if cmd.command.isNone then (none, false) else (some cmd, false)
  | cur_token :: rest =>
    if cur_token.token_id = TokenId.BG then loopGo ia cmd.setBg rest
    else if cur_token.token_id = TokenId.REDIR_IN then
      match hRi : rest with
      | [] => (none, false)
      | peek :: rest2 =>
        if isIdentTok peek then loopGo ia (cmd.setRedirIn peek.str) rest2
        else (none, false)
    else if cur_token.token_id = TokenId.APPEND_OUT then
      match hRa : rest with
      | [] => (none, false)
      | peek :: rest2 =>
        if isIdentTok peek then
          loopGo ia (cmd.setAppend.setRedirOut peek.str) rest2
        else (none, false)
    else if cur_token.token_id = TokenId.REDIR_OUT then
      match hRo : rest with
      | [] => (none, false)
      | peek :: rest2 =>
        if isIdentTok peek then loopGo ia (cmd.setRedirOut peek.str) rest2
        else (none, false)
    else if cur_token.token_id = TokenId.PIPE then
      match hRp : rest with
      | [] => (none, false)
      | cur2 :: _ =>
        if isIdentTok cur2 then
          match loopGo ia (Command.init ia) rest with
          | (none, f) => (none, f)
          | (some sub, f) => (some (cmd.setPipe sub), f)
        else (none, false)
    else if cur_token.token_id = TokenId.END then (some cmd, false)
    else
      match hAL : argLoop rest (frontStale rest cur_token) with
      | (collected, rest2, oobArg) =>
        match loopGo ia (cmd.setProgArgs cur_token.str (cur_token.str :: collected))
              rest2 with
        | (res, oobRest) => (res, (rest.isEmpty || oobArg) || oobRest)
termination_by tokens.length
decreasing_by
  all_goals
    first
    | (subst_vars; simp only [List.length_cons]; omega)
    | (have hal : ∀ (ts : List Token) (p : Token),
          (argLoop ts p).2.1.length ≤ ts.length := by
        intro ts
        induction ts with
        | nil =>
          intro p
          by_cases hp : isIdentTok p
          · simp [argLoop, hp]
          · simp [argLoop, hp]
        | cons t rest ih =>
          intro p
          by_cases hp : isIdentTok p
          · simp only [argLoop, hp, if_pos]
            exact Nat.le_succ_of_le (ih (frontStale rest t))
          · simp [argLoop, hp]
       simp only [List.length_cons]
       apply Nat.lt_succ_of_le
       have h2 := congrArg (fun q => (q.2.1 : List Token).length) hAL
       simp only [] at h2
       rw [← h2]
       exact hal _ _)

/-- `buildCommands` (lines 266-343), instrumented with the empty-vector
`front()` flag; the real function's result is the first component. -/
def buildCommandsI (ia : Bool) (tokens : List Token) : Option Command × Bool :=
  match tokens with
  | [] => (none, false)
  | cur_token :: _ =>
    if isIdentTok cur_token then loopGo ia (Command.init ia) tokens
    else (none, false)

/-- `buildCommands` (lines 266-343): `nullptr` becomes `none`. -/
def buildCommands (ia : Bool) (tokens : List Token) : Option Command :=
  (buildCommandsI ia tokens).1

/-- `lastCommand` (lines 414-419). -/
def lastCommand : Command → Command
  | .mk c a b ap ri ro none => .mk c a b ap ri ro none
  | .mk _ _ _ _ _ _ (some nxt) => lastCommand nxt

/-- Number of nodes of a command chain. -/
def chainLength : Command → Nat
  | .mk _ _ _ _ _ _ none => 1
  | .mk _ _ _ _ _ _ (some nxt) => 1 + chainLength nxt

/-- The list of stage nodes of a command chain, in order. -/
def chainStages : Command → List Command
  | .mk c a b ap ri ro none => [.mk c a b ap ri ro none]
  | .mk c a b ap ri ro (some nxt) => .mk c a b ap ri ro (some nxt) :: chainStages nxt

/-- Line 457 of `executeCommand(Command*)`:
`if (!command->bg) waitpid(child, NULL, 0);` — the driver waits for the
drain child iff the bg flag of the ROOT node of the chain is false. -/
def driverWaits (command : Command) : Bool := !command.bg

/-- The arguments of the `open(2)` call of the drain process, as flags. -/
structure OpenCall where
  path : Str
  flagWronly : Bool
  flagCreat : Bool
  flagAppend : Bool
  flagTrunc : Bool
  modeOwnerRead : Bool
  modeOwnerWrite : Bool
  modeOtherBits : Bool
deriving DecidableEq

/-- Lines 439-444 of `executeCommand(Command*)`: if the last stage has an
output redirect, the drain child opens it with
`O_WRONLY | O_CREAT | (append ? O_APPEND : O_TRUNC)` and mode
`S_IRUSR | S_IWUSR`; otherwise no file is opened (stdout is used). -/
def driverOutputOpen (command : Command) : Option OpenCall :=
  match (lastCommand command).redir_out with
  | none => none
  | some f =>
    some ⟨f, true, true, (lastCommand command).append,
          !(lastCommand command).append, true, true, false⟩

/-- Redirection operators of the grammar `ident+ (redir ident)*`. -/
inductive RedirKind where
  | rin | rout | rapp
deriving DecidableEq

/-- The token of a redirection operator. -/
def RedirKind.tok : RedirKind → Token
  | .rin => Token.make TokenId.REDIR_IN
  | .rout => Token.make TokenId.REDIR_OUT
  | .rapp => Token.make TokenId.APPEND_OUT

/-- One `ident+ (redir ident)*` group of the well-formed-input grammar. -/
structure Stage where
  idents : List Str
  redirs : List (RedirKind × Str)

/-- The token segment `(redir ident)*` of a stage. -/
def flattenRedirs : List (RedirKind × Str) → List Token
  | [] => []
  | (k, f) :: rs => k.tok :: Token.makeIdent f :: flattenRedirs rs

/-- The token segment of one stage: `ident+ (redir ident)*`. -/
def flattenStage (st : Stage) : List Token :=
  st.idents.map Token.makeIdent ++ flattenRedirs st.redirs

/-- An optional `&` token. -/
def ampToks (b : Bool) : List Token := if b then [Token.make TokenId.BG] else []

/-- The token sequences of the grammar
`ident+ (redir ident)* (&)? (| ident+ (redir ident)*)* (&)?`:
first stage `st`, then optionally `&`, then the remaining stages each
preceded by `|`, then optionally a final `&`. -/
def flattenSeq (st : Stage) : List Stage → Bool → Bool → List Token
  | [], amp1, amp2 => flattenStage st ++ ampToks amp1 ++ ampToks amp2
  | st2 :: rest, amp1, amp2 =>
    flattenStage st ++ ampToks amp1 ++
      Token.make TokenId.PIPE :: flattenSeq st2 rest false amp2

/-- The field update one `redir ident` pair performs on the current node. -/
def applyRedir (cmd : Command) : RedirKind × Str → Command
  | (.rin, f) => cmd.setRedirIn (some f)
  | (.rout, f) => cmd.setRedirOut (some f)
  | (.rapp, f) => cmd.setAppend.setRedirOut (some f)

/-- The field updates of a stage's `(redir ident)*` segment, in order. -/
def applyRedirs (cmd : Command) (rs : List (RedirKind × Str)) : Command :=
  rs.foldl applyRedir cmd

/-- The node the parser builds for one stage of the well-formed grammar:
program and argv from the identifier group, then the redirections, then
optionally the `&` flag, then the link to the next stage. -/
def stageNode (ia : Bool) (st : Stage) (amp : Bool) (pipe : Option Command) :
    Command :=
  let base := (Command.init ia).setProgArgs st.idents.head? (st.idents.map some)
  let withR := applyRedirs base st.redirs
  let withB := if amp then withR.setBg else withR
  match pipe with
  | none => withB
  | some sub => withB.setPipe sub

/-- The chain the parser builds for a whole well-formed command line. -/
def chainOf (ia : Bool) (st : Stage) : List Stage → Bool → Bool → Command
  | [], amp1, amp2 => stageNode ia st (amp1 || amp2) none
  | st2 :: rest, amp1, amp2 =>
    stageNode ia st amp1 (some (chainOf ia st2 rest false amp2))

/-- Modelled from the spec: the literal form of each token, used by the
round-trip tokenization property (§8); the executable source has no
printing function for tokens.  `END` never appears in a `tokenList`
result; its literal is the empty string. -/
def specLiteral : Token → Str
  | ⟨TokenId.IDENT, some s⟩ => s
  | ⟨TokenId.IDENT, none⟩ => []
  | ⟨TokenId.PIPE, _⟩ => ['|']
  | ⟨TokenId.REDIR_IN, _⟩ => ['<']
  | ⟨TokenId.REDIR_OUT, _⟩ => ['>']
  | ⟨TokenId.APPEND_OUT, _⟩ => ['>', '>']
  | ⟨TokenId.BG, _⟩ => ['&']
  | ⟨TokenId.END, _⟩ => []

/-- Modelled from the spec: joining the literal forms with single spaces
(§8 round-trip tokenization). -/
def specRejoin : List Token → Str
  | [] => []
  | [t] => specLiteral t
  | t :: ts => specLiteral t ++ ' ' :: specRejoin ts

/-- Well-formedness of a token value: the payload is present exactly on
identifiers, identifier payloads are non-empty words without separator
characters, and the end marker does not occur.  Every token `tokenList`
produces is of this shape. -/
def validTok (t : Token) : Prop :=
  (t.token_id = TokenId.IDENT ∧
    ∃ w, t.str = some w ∧ w ≠ [] ∧ ∀ c ∈ w, !specialChar c) ∨
  (t.token_id ≠ TokenId.IDENT ∧ t.token_id ≠ TokenId.END ∧ t.str = none)

/-- A token sequence without the end marker (as all `tokenList` results). -/
def noEnd (ts : List Token) : Prop := ∀ t ∈ ts, t.token_id ≠ TokenId.END

/-- The head of `ts`, when it exists, is not an identifier. -/
def headNotIdent (ts : List Token) : Prop :=
  ∀ t, ts.head? = some t → t.token_id ≠ TokenId.IDENT

/-- A redirection token (`<`, `>` or `>>`). -/
def isRedirTok (t : Token) : Prop :=
  t.token_id = TokenId.REDIR_IN ∨ t.token_id = TokenId.REDIR_OUT ∨
    t.token_id = TokenId.APPEND_OUT

/-- The sequence ends in a pipe token. -/
def endsPipe (ts : List Token) : Prop :=
  ∃ pre p, ts = pre ++ [p] ∧ p.token_id = TokenId.PIPE

/-- The sequence ends in a non-identifier token. -/
def endsNonIdent (ts : List Token) : Prop :=
  ∃ pre x, ts = pre ++ [x] ∧ x.token_id ≠ TokenId.IDENT

/-- Somewhere in the sequence a redirection token is immediately followed by
a non-identifier token or by the end of the sequence. -/
def badRedir (ts : List Token) : Prop :=
  ∃ l r suffx, ts = l ++ r :: suffx ∧ isRedirTok r ∧ headNotIdent suffx

/-! ### Basic facts about `Command` fields and setters -/

@[simp] theorem Command.command_mk (c a b ap ri ro p) :
    (Command.mk c a b ap ri ro p).command = c := rfl

@[simp] theorem Command.args_mk (c a b ap ri ro p) :
    (Command.mk c a b ap ri ro p).args = a := rfl

@[simp] theorem Command.bg_mk (c a b ap ri ro p) :
    (Command.mk c a b ap ri ro p).bg = b := rfl

@[simp] theorem Command.append_mk (c a b ap ri ro p) :
    (Command.mk c a b ap ri ro p).append = ap := rfl

@[simp] theorem Command.redir_in_mk (c a b ap ri ro p) :
    (Command.mk c a b ap ri ro p).redir_in = ri := rfl

@[simp] theorem Command.redir_out_mk (c a b ap ri ro p) :
    (Command.mk c a b ap ri ro p).redir_out = ro := rfl

@[simp] theorem Command.pipe_to_mk (c a b ap ri ro p) :
    (Command.mk c a b ap ri ro p).pipe_to = p := rfl

@[simp] theorem Command.setBg_fields (c : Command) :
    c.setBg.command = c.command ∧ c.setBg.args = c.args ∧ c.setBg.bg = true ∧
    c.setBg.append = c.append ∧ c.setBg.redir_in = c.redir_in ∧
    c.setBg.redir_out = c.redir_out ∧ c.setBg.pipe_to = c.pipe_to := by
  cases c
  exact ⟨rfl, rfl, rfl, rfl, rfl, rfl, rfl⟩

@[simp] theorem Command.setAppend_fields (c : Command) :
    c.setAppend.command = c.command ∧ c.setAppend.args = c.args ∧
    c.setAppend.bg = c.bg ∧ c.setAppend.append = true ∧
    c.setAppend.redir_in = c.redir_in ∧ c.setAppend.redir_out = c.redir_out ∧
    c.setAppend.pipe_to = c.pipe_to := by
  cases c
  exact ⟨rfl, rfl, rfl, rfl, rfl, rfl, rfl⟩

@[simp] theorem Command.setRedirIn_fields (c : Command) (f : Option Str) :
    (c.setRedirIn f).command = c.command ∧ (c.setRedirIn f).args = c.args ∧
    (c.setRedirIn f).bg = c.bg ∧ (c.setRedirIn f).append = c.append ∧
    (c.setRedirIn f).redir_in = f ∧ (c.setRedirIn f).redir_out = c.redir_out ∧
    (c.setRedirIn f).pipe_to = c.pipe_to := by
  cases c
  exact ⟨rfl, rfl, rfl, rfl, rfl, rfl, rfl⟩

@[simp] theorem Command.setRedirOut_fields (c : Command) (f : Option Str) :
    (c.setRedirOut f).command = c.command ∧ (c.setRedirOut f).args = c.args ∧
    (c.setRedirOut f).bg = c.bg ∧ (c.setRedirOut f).append = c.append ∧
    (c.setRedirOut f).redir_in = c.redir_in ∧ (c.setRedirOut f).redir_out = f ∧
    (c.setRedirOut f).pipe_to = c.pipe_to := by
  cases c
  exact ⟨rfl, rfl, rfl, rfl, rfl, rfl, rfl⟩

@[simp] theorem Command.setProgArgs_fields (c : Command) (prog : Option Str)
    (newArgs : List (Option Str)) :
    (c.setProgArgs prog newArgs).command = prog ∧
    (c.setProgArgs prog newArgs).args = some newArgs ∧
    (c.setProgArgs prog newArgs).bg = c.bg ∧
    (c.setProgArgs prog newArgs).append = c.append ∧
    (c.setProgArgs prog newArgs).redir_in = c.redir_in ∧
    (c.setProgArgs prog newArgs).redir_out = c.redir_out ∧
    (c.setProgArgs prog newArgs).pipe_to = c.pipe_to := by
  cases c
  exact ⟨rfl, rfl, rfl, rfl, rfl, rfl, rfl⟩

@[simp] theorem Command.setPipe_fields (c : Command) (sub : Command) :
    (c.setPipe sub).command = c.command ∧ (c.setPipe sub).args = c.args ∧
    (c.setPipe sub).bg = c.bg ∧ (c.setPipe sub).append = c.append ∧
    (c.setPipe sub).redir_in = c.redir_in ∧
    (c.setPipe sub).redir_out = c.redir_out ∧
    (c.setPipe sub).pipe_to = some sub := by
  cases c
  exact ⟨rfl, rfl, rfl, rfl, rfl, rfl, rfl⟩

@[simp] theorem Command.init_fields (ia : Bool) :
    (Command.init ia).command = none ∧ (Command.init ia).args = none ∧
    (Command.init ia).bg = false ∧ (Command.init ia).append = ia ∧
    (Command.init ia).redir_in = none ∧ (Command.init ia).redir_out = none ∧
    (Command.init ia).pipe_to = none :=
  ⟨rfl, rfl, rfl, rfl, rfl, rfl, rfl⟩

theorem Command.setBg_setBg (c : Command) : c.setBg.setBg = c.setBg := by
  cases c
  rfl

/-! ### Step lemmas for the parser loop -/

theorem argLoop_frontStale (ts : List Token) (stale : Token) :
    argLoop ts (frontStale ts stale) =
      ((ts.takeWhile isIdentTok).map Token.str, ts.dropWhile isIdentTok,
       !(ts.takeWhile isIdentTok).isEmpty && (ts.dropWhile isIdentTok).isEmpty) := by
  induction ts generalizing stale with
  | nil =>
    by_cases hid : isIdentTok stale
    · simp [argLoop, frontStale, hid]
    · simp [argLoop, frontStale, hid]
  | cons t rest ih =>
    by_cases hid : isIdentTok t
    · have h1 : argLoop (t :: rest) (frontStale (t :: rest) stale) =
        (t.str :: (argLoop rest (frontStale rest t)).1,
         (argLoop rest (frontStale rest t)).2.1,
         rest.isEmpty || (argLoop rest (frontStale rest t)).2.2) := by
        simp [argLoop, frontStale, hid]
      rw [h1, ih t]
      rw [List.takeWhile_cons_of_pos hid, List.dropWhile_cons_of_pos hid]
      simp only [Prod.mk.injEq, List.map_cons, List.isEmpty_cons, Bool.not_false,
        Bool.true_and, true_and]
      cases rest with
      | nil => simp
      | cons x xs =>
        by_cases hx : isIdentTok x
        · simp [List.takeWhile_cons_of_pos hx]
        · simp [List.takeWhile_cons_of_neg hx, List.dropWhile_cons_of_neg hx]
    · have h1 : argLoop (t :: rest) (frontStale (t :: rest) stale) =
        ([], t :: rest, false) := by
        simp [argLoop, frontStale, hid]
      rw [h1, List.takeWhile_cons_of_neg hid, List.dropWhile_cons_of_neg hid]
      simp

theorem loopGo_nil (ia : Bool) (cmd : Command) :
    loopGo ia cmd [] =
      if cmd.command.isNone then (none, false) else (some cmd, false) := by
  rw [loopGo.eq_def]


theorem loopGo_bg (ia : Bool) (cmd : Command) (cur : Token) (rest : List Token)
    (h : cur.token_id = TokenId.BG) :
    loopGo ia cmd (cur :: rest) = loopGo ia cmd.setBg rest := by
  rw [loopGo.eq_def]
  simp [h]

theorem loopGo_end (ia : Bool) (cmd : Command) (cur : Token) (rest : List Token)
    (h : cur.token_id = TokenId.END) :
    loopGo ia cmd (cur :: rest) = (some cmd, false) := by
  rw [loopGo.eq_def]
  simp [h]

theorem loopGo_rin_nil (ia : Bool) (cmd : Command) (cur : Token)
    (h : cur.token_id = TokenId.REDIR_IN) :
    loopGo ia cmd [cur] = (none, false) := by
  rw [loopGo.eq_def]
  simp [h]

theorem loopGo_rin_cons (ia : Bool) (cmd : Command) (cur peek : Token)
    (rest2 : List Token) (h : cur.token_id = TokenId.REDIR_IN) :
    loopGo ia cmd (cur :: peek :: rest2) =
      if isIdentTok peek then loopGo ia (cmd.setRedirIn peek.str) rest2
      else (none, false) := by
  rw [loopGo.eq_def]
  simp [h]

theorem loopGo_rapp_nil (ia : Bool) (cmd : Command) (cur : Token)
    (h : cur.token_id = TokenId.APPEND_OUT) :
    loopGo ia cmd [cur] = (none, false) := by
  rw [loopGo.eq_def]
  simp [h]

theorem loopGo_rapp_cons (ia : Bool) (cmd : Command) (cur peek : Token)
    (rest2 : List Token) (h : cur.token_id = TokenId.APPEND_OUT) :
    loopGo ia cmd (cur :: peek :: rest2) =
      if isIdentTok peek then loopGo ia (cmd.setAppend.setRedirOut peek.str) rest2
      else (none, false) := by
  rw [loopGo.eq_def]
  simp [h]

theorem loopGo_rout_nil (ia : Bool) (cmd : Command) (cur : Token)
    (h : cur.token_id = TokenId.REDIR_OUT) :
    loopGo ia cmd [cur] = (none, false) := by
  rw [loopGo.eq_def]
  simp [h]

theorem loopGo_rout_cons (ia : Bool) (cmd : Command) (cur peek : Token)
    (rest2 : List Token) (h : cur.token_id = TokenId.REDIR_OUT) :
    loopGo ia cmd (cur :: peek :: rest2) =
      if isIdentTok peek then loopGo ia (cmd.setRedirOut peek.str) rest2
      else (none, false) := by
  rw [loopGo.eq_def]
  simp [h]

theorem buildCommandsI_nil (ia : Bool) : buildCommandsI ia [] = (none, false) := rfl

theorem buildCommandsI_cons (ia : Bool) (cur : Token) (rest : List Token) :
    buildCommandsI ia (cur :: rest) =
      if isIdentTok cur then loopGo ia (Command.init ia) (cur :: rest)
      else (none, false) := rfl

theorem loopGo_pipe (ia : Bool) (cmd : Command) (cur : Token) (rest : List Token)
    (h : cur.token_id = TokenId.PIPE) :
    loopGo ia cmd (cur :: rest) =
      match buildCommandsI ia rest with
      | (none, f) => (none, f)
      | (some sub, f) => (some (cmd.setPipe sub), f) := by
  rw [loopGo.eq_def]
  simp only [h]
  cases rest with
  | nil => simp [buildCommandsI_nil]
  | cons cur2 rest' =>
    rw [buildCommandsI_cons]
    by_cases hid : isIdentTok cur2
    · simp [hid]
    · simp [hid]

theorem loopGo_ident (ia : Bool) (cmd : Command) (cur : Token) (rest : List Token)
    (h : cur.token_id = TokenId.IDENT) :
    loopGo ia cmd (cur :: rest) =
      ((loopGo ia
          (cmd.setProgArgs cur.str
            (cur.str :: ((rest.takeWhile isIdentTok).map Token.str)))
          (rest.dropWhile isIdentTok)).1,
       (rest.isEmpty ||
          (!(rest.takeWhile isIdentTok).isEmpty &&
            (rest.dropWhile isIdentTok).isEmpty)) ||
         (loopGo ia
            (cmd.setProgArgs cur.str
              (cur.str :: ((rest.takeWhile isIdentTok).map Token.str)))
            (rest.dropWhile isIdentTok)).2) := by
  rw [loopGo.eq_def]
  simp [h]
  rw [argLoop_frontStale rest cur]
  exact ⟨rfl, rfl⟩

/-! ### Lexer facts -/

theorem buildToken_nil : buildToken [] = (Token.make TokenId.END, []) := rfl

theorem buildToken_space (s : Str) : buildToken (' ' :: s) = buildToken s := by
  simp [buildToken]

/-- The lexer consumes at least one character of a non-empty input. -/
theorem buildToken_progress (s : Str) (h : s ≠ []) :
    (buildToken s).2.length < s.length := by
  induction s with
  | nil => exact absurd rfl h
  | cons c input ih =>
    simp only [buildToken]
    split_ifs with h1 h2 h3 h4 h5 h6
    · rcases Decidable.em (input = []) with hi | hi
      · subst hi; simp [buildToken]
      · exact Nat.lt_succ_of_lt (ih hi)
    · dsimp only
      simp only [List.length_cons, List.length_tail]
      omega
    · dsimp only
      simp only [List.length_cons]
      omega
    · simp
    · simp
    · simp
    · refine Nat.lt_succ_of_le ?_
      have : ∀ (p : Char → Bool) (l : Str), (l.dropWhile p).length ≤ l.length := by
        intro p l
        induction l with
        | nil => simp [List.dropWhile]
        | cons a l ihl =>
          by_cases hp : p a
          · simp only [List.dropWhile, hp]
            exact Nat.le_succ_of_le ihl
          · simp only [List.dropWhile, hp]
            simp
      exact this _ _

theorem tokenList_step (s : Str) :
    tokenList s =
      if (buildToken s).1.token_id = TokenId.END then []
      else (buildToken s).1 :: tokenList (buildToken s).2 := by
  rw [tokenList.eq_def]
  rcases hb : buildToken s with ⟨t, rest⟩
  simp

theorem tokenList_nil : tokenList [] = [] := by
  rw [tokenList_step]
  simp [buildToken_nil, Token.make]

theorem tokenList_space (s : Str) : tokenList (' ' :: s) = tokenList s := by
  rw [tokenList_step, buildToken_space, ← tokenList_step]

/-- Every token the tokenizer produces is well formed: identifiers carry a
non-empty separator-free payload, other tokens carry none, and `END` never
occurs. -/
theorem buildToken_valid (s : Str) (h : (buildToken s).1.token_id ≠ TokenId.END) :
    validTok (buildToken s).1 := by
  induction s with
  | nil => exact absurd rfl h
  | cons c input ih =>
    rw [show buildToken (c :: input) =
      (if c = ' ' then buildToken input
       else if c = '>' then
         if input.head? = some '>' then (Token.make TokenId.APPEND_OUT, input.tail)
         else (Token.make TokenId.REDIR_OUT, input)
       else if c = '<' then (Token.make TokenId.REDIR_IN, input)
       else if c = '|' then (Token.make TokenId.PIPE, input)
       else if c = '&' then (Token.make TokenId.BG, input)
       else
         (Token.makeIdent (c :: input.takeWhile (fun d => !specialChar d)),
          input.dropWhile (fun d => !specialChar d))) from rfl] at h ⊢
    split_ifs at h ⊢ with h1 h2 h3 h4 h5 h6
    · exact ih h
    · exact Or.inr ⟨by simp [Token.make], by simp [Token.make], rfl⟩
    · exact Or.inr ⟨by simp [Token.make], by simp [Token.make], rfl⟩
    · exact Or.inr ⟨by simp [Token.make], by simp [Token.make], rfl⟩
    · exact Or.inr ⟨by simp [Token.make], by simp [Token.make], rfl⟩
    · exact Or.inr ⟨by simp [Token.make], by simp [Token.make], rfl⟩
    · refine Or.inl ⟨rfl, c :: input.takeWhile (fun d => !specialChar d), rfl,
        List.cons_ne_nil _ _, ?_⟩
      intro d hd
      rcases List.mem_cons.mp hd with hd | hd
      · subst hd
        simp [specialChar, h1, h2, h4, h5, h6]
      · simpa using List.mem_takeWhile_imp hd

theorem tokenList_valid_aux :
    ∀ n (s : Str), s.length ≤ n → ∀ t ∈ tokenList s, validTok t := by
  intro n
  induction n with
  | zero =>
    intro s hlen t ht
    have hs : s = [] := List.length_eq_zero.mp (Nat.le_zero.mp hlen)
    subst hs
    rw [tokenList_nil] at ht
    exact absurd ht (List.not_mem_nil t)
  | succ n ih =>
    intro s hlen t ht
    rw [tokenList_step] at ht
    split at ht
    · exact absurd ht (List.not_mem_nil t)
    · next hEnd =>
      have hs : s ≠ [] := by
        intro he
        subst he
        exact hEnd (by simp [buildToken_nil, Token.make])
      rcases List.mem_cons.mp ht with h | h
      · subst h
        exact buildToken_valid s hEnd
      · have hlt := buildToken_progress s hs
        exact ih (buildToken s).2 (by omega) t h

/-- All tokens of a `tokenList` result are well formed. -/
theorem tokenList_valid (s : Str) : ∀ t ∈ tokenList s, validTok t :=
  tokenList_valid_aux s.length s le_rfl

/-- The end marker is never an element of a `tokenList` result. -/
theorem tokenList_noEnd (s : Str) : noEnd (tokenList s) := by
  intro t ht
  rcases tokenList_valid s t ht with ⟨hid, _⟩ | ⟨_, hne, _⟩
  · rw [hid]
    intro hc
    exact TokenId.noConfusion hc
  · exact hne

/-! ### Round-trip machinery -/

theorem takeWhile_append_sat {α : Type} (p : α → Bool) (l1 l2 : List α)
    (h : ∀ a ∈ l1, p a = true) :
    (l1 ++ l2).takeWhile p = l1 ++ l2.takeWhile p := by
  induction l1 with
  | nil => simp
  | cons a l ih =>
    rw [List.cons_append, List.takeWhile_cons_of_pos (h a (List.mem_cons_self a l)),
      ih (fun b hb => h b (List.mem_cons_of_mem a hb)), List.cons_append]

theorem dropWhile_append_sat {α : Type} (p : α → Bool) (l1 l2 : List α)
    (h : ∀ a ∈ l1, p a = true) :
    (l1 ++ l2).dropWhile p = l2.dropWhile p := by
  induction l1 with
  | nil => simp
  | cons a l ih =>
    rw [List.cons_append, List.dropWhile_cons_of_pos (h a (List.mem_cons_self a l)),
      ih (fun b hb => h b (List.mem_cons_of_mem a hb))]

/-- The lexer recovers a well-formed token from its literal form, both when
the literal ends the input and when a single space and further input
follow. -/
theorem buildToken_literal (t : Token) (hv : validTok t) (r : Str)
    (hr : r = [] ∨ ∃ r2, r = ' ' :: r2) :
    buildToken (specLiteral t ++ r) = (t, r) := by
  rcases hv with ⟨hid, w, hstr, hne, hall⟩ | ⟨hnid, hnend, hstr⟩
  · obtain ⟨i, s⟩ := t
    simp only at hid hstr
    subst hid
    subst hstr
    cases w with
    | nil => exact absurd rfl hne
    | cons c w' =>
      have hlit : specLiteral ⟨TokenId.IDENT, some (c :: w')⟩ = c :: w' := rfl
      rw [hlit]
      have hc := hall c (List.mem_cons_self c w')
      have hcs : specialChar c = false := by simpa using hc
      have hc1 : ¬ c = ' ' := by
        intro he; rw [he] at hcs; simp [specialChar] at hcs
      have hc2 : ¬ c = '>' := by
        intro he; rw [he] at hcs; simp [specialChar] at hcs
      have hc4 : ¬ c = '<' := by
        intro he; rw [he] at hcs; simp [specialChar] at hcs
      have hc5 : ¬ c = '|' := by
        intro he; rw [he] at hcs; simp [specialChar] at hcs
      have hc6 : ¬ c = '&' := by
        intro he; rw [he] at hcs; simp [specialChar] at hcs
      rw [List.cons_append]
      rw [show buildToken (c :: (w' ++ r)) =
        (Token.makeIdent (c :: (w' ++ r).takeWhile (fun d => !specialChar d)),
         (w' ++ r).dropWhile (fun d => !specialChar d)) from by
        simp [buildToken, hc1, hc2, hc4, hc5, hc6]]
      have hw' : ∀ a ∈ w', (fun d => !specialChar d) a = true := by
        intro a ha
        simpa using hall a (List.mem_cons_of_mem c ha)
      rw [takeWhile_append_sat _ _ _ hw', dropWhile_append_sat _ _ _ hw']
      have hrt : r.takeWhile (fun d => !specialChar d) = [] := by
        rcases hr with hr | ⟨r2, hr⟩
        · subst hr; rfl
        · subst hr
          rw [List.takeWhile_cons_of_neg]
          simp [specialChar]
      have hrd : r.dropWhile (fun d => !specialChar d) = r := by
        rcases hr with hr | ⟨r2, hr⟩
        · subst hr; rfl
        · subst hr
          rw [List.dropWhile_cons_of_neg]
          simp [specialChar]
      rw [hrt, hrd, List.append_nil]
      rfl
  · obtain ⟨i, s⟩ := t
    simp only at hnid hnend hstr
    subst hstr
    have hrh : r.head? ≠ some '>' := by
      rcases hr with hr | ⟨r2, hr⟩
      · subst hr; simp
      · subst hr; simp
    cases i with
    | IDENT => exact absurd rfl hnid
    | END => exact absurd rfl hnend
    | PIPE => simp [specLiteral, buildToken, Token.make]
    | REDIR_IN => simp [specLiteral, buildToken, Token.make]
    | BG => simp [specLiteral, buildToken, Token.make]
    | REDIR_OUT =>
      have : specLiteral ⟨TokenId.REDIR_OUT, none⟩ ++ r = '>' :: r := rfl
      rw [this]
      simp [buildToken, hrh, Token.make]
    | APPEND_OUT =>
      have : specLiteral ⟨TokenId.APPEND_OUT, none⟩ ++ r = '>' :: '>' :: r := rfl
      rw [this]
      simp [buildToken, Token.make]

/-- Retokenizing the rejoined literal forms of well-formed tokens yields the
tokens back. -/
theorem tokenList_specRejoin (ts : List Token) (h : ∀ t ∈ ts, validTok t) :
    tokenList (specRejoin ts) = ts := by
  induction ts with
  | nil => exact tokenList_nil
  | cons t ts ih =>
    have hvt := h t (List.mem_cons_self t ts)
    have hnend : t.token_id ≠ TokenId.END := by
      rcases hvt with ⟨hid, _⟩ | ⟨_, hnend, _⟩
      · rw [hid]; intro hc; exact TokenId.noConfusion hc
      · exact hnend
    cases ts with
    | nil =>
      have : specRejoin [t] = specLiteral t ++ [] := by
        simp [specRejoin]
      rw [this, tokenList_step, buildToken_literal t hvt [] (Or.inl rfl)]
      simp [hnend, tokenList_nil]
    | cons u ts' =>
      have hrj : specRejoin (t :: u :: ts') = specLiteral t ++ ' ' :: specRejoin (u :: ts') :=
        rfl
      rw [hrj, tokenList_step,
        buildToken_literal t hvt (' ' :: specRejoin (u :: ts')) (Or.inr ⟨_, rfl⟩)]
      simp only [hnend, if_neg, not_false_iff]
      rw [tokenList_space]
      rw [ih (fun x hx => h x (List.mem_cons_of_mem t hx))]

/-! ### Processing well-formed stages -/

theorem isIdentTok_makeIdent (s : Str) : isIdentTok (Token.makeIdent s) = true := rfl

theorem token_id_make (i : TokenId) : (Token.make i).token_id = i := rfl

theorem str_makeIdent (s : Str) : (Token.makeIdent s).str = some s := rfl

theorem headNotIdent_nil : headNotIdent [] := by
  intro t ht
  simp at ht

theorem headNotIdent_flattenRedirs (rs : List (RedirKind × Str))
    (suffx : List Token) (hs : headNotIdent suffx) :
    headNotIdent (flattenRedirs rs ++ suffx) := by
  cases rs with
  | nil => simpa [flattenRedirs] using hs
  | cons r rs =>
    obtain ⟨k, f⟩ := r
    intro t ht
    have : t = k.tok := by
      simp [flattenRedirs] at ht
      exact ht.symm
    subst this
    cases k with
    | rin => intro hc; exact TokenId.noConfusion hc
    | rout => intro hc; exact TokenId.noConfusion hc
    | rapp => intro hc; exact TokenId.noConfusion hc

theorem takeWhile_headNotIdent (tl : List Token) (h : headNotIdent tl) :
    tl.takeWhile isIdentTok = [] := by
  cases tl with
  | nil => rfl
  | cons x xs =>
    rw [List.takeWhile_cons_of_neg]
    have hx := h x rfl
    simp [isIdentTok, hx]

theorem dropWhile_headNotIdent (tl : List Token) (h : headNotIdent tl) :
    tl.dropWhile isIdentTok = tl := by
  cases tl with
  | nil => rfl
  | cons x xs =>
    rw [List.dropWhile_cons_of_neg]
    have hx := h x rfl
    simp [isIdentTok, hx]

/-- Processing one group of identifiers: program name and argv are recorded,
the loop continues at the first non-identifier token. -/
theorem loopGo_identRun (ia : Bool) (cmd : Command) (i0 : Str) (irest : List Str)
    (tl : List Token) (htl : headNotIdent tl) :
    (loopGo ia cmd (Token.makeIdent i0 :: (irest.map Token.makeIdent ++ tl))).1 =
      (loopGo ia (cmd.setProgArgs (some i0) ((i0 :: irest).map some)) tl).1 := by
  rw [loopGo_ident ia cmd (Token.makeIdent i0) _ rfl]
  have hsat : ∀ a ∈ irest.map Token.makeIdent, isIdentTok a = true := by
    intro a ha
    rcases List.mem_map.mp ha with ⟨x, _, hx⟩
    rw [← hx]
    rfl
  rw [takeWhile_append_sat _ _ _ hsat, dropWhile_append_sat _ _ _ hsat,
    takeWhile_headNotIdent tl htl, dropWhile_headNotIdent tl htl,
    List.append_nil]
  have hmap : (irest.map Token.makeIdent).map Token.str = irest.map some := by
    rw [List.map_map]
    rfl
  rw [hmap]
  rfl

theorem applyRedirs_nil (cmd : Command) : applyRedirs cmd [] = cmd := rfl

theorem applyRedirs_cons (cmd : Command) (r : RedirKind × Str)
    (rs : List (RedirKind × Str)) :
    applyRedirs cmd (r :: rs) = applyRedirs (applyRedir cmd r) rs := rfl

/-- Processing the `(redir ident)*` segment of a stage. -/
theorem loopGo_redirs (ia : Bool) (rs : List (RedirKind × Str)) (cmd : Command)
    (suffx : List Token) :
    loopGo ia cmd (flattenRedirs rs ++ suffx) =
      loopGo ia (applyRedirs cmd rs) suffx := by
  induction rs generalizing cmd with
  | nil => rw [flattenRedirs, List.nil_append, applyRedirs_nil]
  | cons r rs ih =>
    obtain ⟨k, f⟩ := r
    have hflat : flattenRedirs ((k, f) :: rs) ++ suffx =
        k.tok :: Token.makeIdent f :: (flattenRedirs rs ++ suffx) := rfl
    rw [hflat]
    cases k with
    | rin =>
      rw [loopGo_rin_cons ia cmd _ _ _ rfl]
      rw [if_pos (isIdentTok_makeIdent f), str_makeIdent, ih]
      rfl
    | rout =>
      rw [loopGo_rout_cons ia cmd _ _ _ rfl]
      rw [if_pos (isIdentTok_makeIdent f), str_makeIdent, ih]
      rfl
    | rapp =>
      rw [loopGo_rapp_cons ia cmd _ _ _ rfl]
      rw [if_pos (isIdentTok_makeIdent f), str_makeIdent, ih]
      rfl

/-- Processing an optional `&`. -/
theorem loopGo_amp (ia b : Bool) (cmd : Command) (suffx : List Token) :
    loopGo ia cmd (ampToks b ++ suffx) =
      loopGo ia (if b then cmd.setBg else cmd) suffx := by
  cases b
  · rw [ampToks, if_neg (by simp), List.nil_append, if_neg (by simp)]
  · rw [ampToks, if_pos rfl, if_pos rfl, List.singleton_append]
    exact loopGo_bg ia cmd _ _ rfl

/-- Processing one full stage `ident+ (redir ident)*`. -/
theorem loopGo_stageStep (ia : Bool) (cmd : Command) (st : Stage) (i0 : Str)
    (irest : List Str) (hid : st.idents = i0 :: irest) (suffx : List Token)
    (hs : headNotIdent suffx) :
    (loopGo ia cmd (flattenStage st ++ suffx)).1 =
      (loopGo ia
        (applyRedirs (cmd.setProgArgs (some i0) (st.idents.map some)) st.redirs)
        suffx).1 := by
  have hflat : flattenStage st ++ suffx =
      Token.makeIdent i0 ::
        (irest.map Token.makeIdent ++ (flattenRedirs st.redirs ++ suffx)) := by
    rw [flattenStage, hid]
    simp [List.append_assoc]
  rw [hflat,
    loopGo_identRun ia cmd i0 irest _
      (headNotIdent_flattenRedirs st.redirs suffx hs),
    loopGo_redirs, hid]

theorem applyRedir_command (cmd : Command) (r : RedirKind × Str) :
    (applyRedir cmd r).command = cmd.command := by
  obtain ⟨k, f⟩ := r
  cases k <;> simp [applyRedir]

theorem applyRedirs_command (cmd : Command) (rs : List (RedirKind × Str)) :
    (applyRedirs cmd rs).command = cmd.command := by
  induction rs generalizing cmd with
  | nil => rfl
  | cons r rs ih => rw [applyRedirs_cons, ih, applyRedir_command]

theorem applyRedir_pipe_to (cmd : Command) (r : RedirKind × Str) :
    (applyRedir cmd r).pipe_to = cmd.pipe_to := by
  obtain ⟨k, f⟩ := r
  cases k <;> simp [applyRedir]

theorem applyRedirs_pipe_to (cmd : Command) (rs : List (RedirKind × Str)) :
    (applyRedirs cmd rs).pipe_to = cmd.pipe_to := by
  induction rs generalizing cmd with
  | nil => rfl
  | cons r rs ih => rw [applyRedirs_cons, ih, applyRedir_pipe_to]

theorem applyRedir_bg (cmd : Command) (r : RedirKind × Str) :
    (applyRedir cmd r).bg = cmd.bg := by
  obtain ⟨k, f⟩ := r
  cases k <;> simp [applyRedir]

theorem applyRedirs_bg (cmd : Command) (rs : List (RedirKind × Str)) :
    (applyRedirs cmd rs).bg = cmd.bg := by
  induction rs generalizing cmd with
  | nil => rfl
  | cons r rs ih => rw [applyRedirs_cons, ih, applyRedir_bg]

theorem headNotIdent_amps (a b : Bool) : headNotIdent (ampToks a ++ ampToks b) := by
  intro t ht
  cases a <;> cases b <;> simp [ampToks, Token.make] at ht <;> (subst ht; simp)

theorem headNotIdent_amp_pipe (a : Bool) (tl : List Token) :
    headNotIdent (ampToks a ++ Token.make TokenId.PIPE :: tl) := by
  intro t ht
  cases a <;> simp [ampToks, Token.make] at ht <;> (subst ht; simp)

theorem buildCommandsI_stage (ia : Bool) (st : Stage) (i0 : Str)
    (irest : List Str) (hid : st.idents = i0 :: irest) (suffx : List Token) :
    buildCommandsI ia (flattenStage st ++ suffx) =
      loopGo ia (Command.init ia) (flattenStage st ++ suffx) := by
  have hflat : flattenStage st ++ suffx =
      Token.makeIdent i0 ::
        (irest.map Token.makeIdent ++ (flattenRedirs st.redirs ++ suffx)) := by
    rw [flattenStage, hid]
    simp [List.append_assoc]
  rw [hflat, buildCommandsI_cons, if_pos (isIdentTok_makeIdent i0)]

/-- The parser on a well-formed command line produces exactly the chain
`chainOf`. -/
theorem parse_flattenSeq (ia : Bool) :
    ∀ (rest : List Stage) (st : Stage) (amp1 amp2 : Bool),
      st.idents ≠ [] → (∀ s ∈ rest, s.idents ≠ []) →
      (buildCommandsI ia (flattenSeq st rest amp1 amp2)).1 =
        some (chainOf ia st rest amp1 amp2) := by
  intro rest
  induction rest with
  | nil =>
    intro st amp1 amp2 h1 _
    obtain ⟨i0, irest, hid⟩ : ∃ i0 irest, st.idents = i0 :: irest := by
      cases hst : st.idents with
      | nil => exact absurd hst h1
      | cons a b => exact ⟨a, b, rfl⟩
    rw [show flattenSeq st [] amp1 amp2 =
        flattenStage st ++ (ampToks amp1 ++ ampToks amp2) from by
      rw [flattenSeq]
      simp [List.append_assoc]]
    rw [buildCommandsI_stage ia st i0 irest hid]
    rw [loopGo_stageStep ia _ st i0 irest hid _ (headNotIdent_amps amp1 amp2)]
    rw [loopGo_amp]
    rw [show ampToks amp2 = ampToks amp2 ++ [] from (List.append_nil _).symm]
    rw [loopGo_amp]
    rw [loopGo_nil]
    have hcmd : ∀ (cmd : Command),
        ((if amp2 then
            (if amp1 then cmd.setBg else cmd).setBg
          else (if amp1 then cmd.setBg else cmd))).command = cmd.command := by
      intro cmd
      cases amp1 <;> cases amp2 <;> simp
    rw [if_neg (by
      rw [hcmd]
      rw [applyRedirs_command]
      simp)]
    rw [chainOf]
    cases amp1 <;> cases amp2 <;>
      simp [stageNode, hid, Command.setBg_setBg]
  | cons st2 rest' ih =>
    intro st amp1 amp2 h1 h2
    obtain ⟨i0, irest, hid⟩ : ∃ i0 irest, st.idents = i0 :: irest := by
      cases hst : st.idents with
      | nil => exact absurd hst h1
      | cons a b => exact ⟨a, b, rfl⟩
    rw [show flattenSeq st (st2 :: rest') amp1 amp2 =
        flattenStage st ++
          (ampToks amp1 ++
            (Token.make TokenId.PIPE :: flattenSeq st2 rest' false amp2)) from by
      rw [flattenSeq]
      simp [List.append_assoc]]
    rw [buildCommandsI_stage ia st i0 irest hid]
    rw [loopGo_stageStep ia _ st i0 irest hid _ (headNotIdent_amp_pipe amp1 _)]
    rw [loopGo_amp]
    rw [loopGo_pipe ia _ _ _ rfl]
    have hIH := ih st2 false amp2 (h2 st2 (List.mem_cons_self st2 rest'))
      (fun s hs => h2 s (List.mem_cons_of_mem st2 hs))
    rcases hB : buildCommandsI ia (flattenSeq st2 rest' false amp2) with ⟨res, fl⟩
    rw [hB] at hIH
    simp only at hIH
    subst hIH
    rw [chainOf]
    cases amp1 <;> simp [stageNode, hid]

theorem chainLength_of_pipe_none (c : Command) (h : c.pipe_to = none) :
    chainLength c = 1 := by
  obtain ⟨cc, a, b, ap, ri, ro, p⟩ := c
  simp only [Command.pipe_to_mk] at h
  subst h
  rfl

theorem chainLength_of_pipe_some (c sub : Command) (h : c.pipe_to = some sub) :
    chainLength c = 1 + chainLength sub := by
  obtain ⟨cc, a, b, ap, ri, ro, p⟩ := c
  simp only [Command.pipe_to_mk] at h
  subst h
  rfl

theorem stageNode_pipe_to_none (ia : Bool) (st : Stage) (amp : Bool) :
    (stageNode ia st amp none).pipe_to = none := by
  cases amp <;> simp [stageNode, applyRedirs_pipe_to]

theorem stageNode_pipe_to_some (ia : Bool) (st : Stage) (amp : Bool)
    (sub : Command) : (stageNode ia st amp (some sub)).pipe_to = some sub := by
  cases amp <;> simp [stageNode]

theorem chainLength_chainOf (ia : Bool) :
    ∀ (rest : List Stage) (st : Stage) (amp1 amp2 : Bool),
      chainLength (chainOf ia st rest amp1 amp2) = rest.length + 1 := by
  intro rest
  induction rest with
  | nil =>
    intro st amp1 amp2
    rw [chainOf, chainLength_of_pipe_none _ (stageNode_pipe_to_none ia st _)]
    rfl
  | cons st2 rest' ih =>
    intro st amp1 amp2
    rw [chainOf, chainLength_of_pipe_some _ _ (stageNode_pipe_to_some ia st _ _),
      ih st2 false amp2]
    simp [Nat.add_comm]

theorem countP_pipe_flattenStage (st : Stage) :
    (flattenStage st).countP (fun t => decide (t.token_id = TokenId.PIPE)) = 0 := by
  rw [flattenStage, List.countP_append]
  have h1 : (st.idents.map Token.makeIdent).countP
      (fun t => decide (t.token_id = TokenId.PIPE)) = 0 := by
    rw [List.countP_eq_zero]
    intro t ht
    rcases List.mem_map.mp ht with ⟨x, _, hx⟩
    rw [← hx]
    simp [Token.makeIdent]
  have h2 : ∀ rs : List (RedirKind × Str),
      (flattenRedirs rs).countP (fun t => decide (t.token_id = TokenId.PIPE)) = 0 := by
    intro rs
    rw [List.countP_eq_zero]
    intro t ht
    induction rs with
    | nil => simp [flattenRedirs] at ht
    | cons r rs ihr =>
      obtain ⟨k, f⟩ := r
      rcases List.mem_cons.mp ht with h | h
      · subst h
        cases k <;> simp [RedirKind.tok, Token.make]
      · rcases List.mem_cons.mp h with h' | h'
        · subst h'
          simp [Token.makeIdent]
        · exact ihr h'
  rw [h1, h2]

theorem countP_pipe_ampToks (b : Bool) :
    (ampToks b).countP (fun t => decide (t.token_id = TokenId.PIPE)) = 0 := by
  cases b <;> simp [ampToks, Token.make]

theorem countP_pipe_flattenSeq :
    ∀ (rest : List Stage) (st : Stage) (amp1 amp2 : Bool),
      (flattenSeq st rest amp1 amp2).countP
        (fun t => decide (t.token_id = TokenId.PIPE)) = rest.length := by
  intro rest
  induction rest with
  | nil =>
    intro st amp1 amp2
    rw [flattenSeq, List.countP_append, List.countP_append,
      countP_pipe_flattenStage, countP_pipe_ampToks, countP_pipe_ampToks]
    rfl
  | cons st2 rest' ih =>
    intro st amp1 amp2
    rw [flattenSeq, List.countP_append, List.countP_append,
      countP_pipe_flattenStage, countP_pipe_ampToks, List.countP_cons,
      ih st2 false amp2]
    simp [Token.make]

/-! ### Field placement over well-formed chains -/

theorem chainStages_of_pipe_none (c : Command) (h : c.pipe_to = none) :
    chainStages c = [c] := by
  obtain ⟨cc, a, b, ap, ri, ro, p⟩ := c
  simp only [Command.pipe_to_mk] at h
  subst h
  rfl

theorem chainStages_of_pipe_some (c sub : Command) (h : c.pipe_to = some sub) :
    chainStages c = c :: chainStages sub := by
  obtain ⟨cc, a, b, ap, ri, ro, p⟩ := c
  simp only [Command.pipe_to_mk] at h
  subst h
  rfl

theorem chainStages_ne_nil (c : Command) : chainStages c ≠ [] := by
  obtain ⟨cc, a, b, ap, ri, ro, p⟩ := c
  cases p <;> simp [chainStages]

theorem applyRedir_redir_in_of (cmd : Command) (r : RedirKind × Str)
    (h : r.1 ≠ RedirKind.rin) : (applyRedir cmd r).redir_in = cmd.redir_in := by
  obtain ⟨k, f⟩ := r
  cases k with
  | rin => exact absurd rfl h
  | rout => simp [applyRedir]
  | rapp => simp [applyRedir]

theorem applyRedirs_redir_in_of (cmd : Command) (rs : List (RedirKind × Str))
    (h : ∀ r ∈ rs, r.1 ≠ RedirKind.rin) :
    (applyRedirs cmd rs).redir_in = cmd.redir_in := by
  induction rs generalizing cmd with
  | nil => rfl
  | cons r rs ih =>
    rw [applyRedirs_cons, ih _ (fun x hx => h x (List.mem_cons_of_mem r hx)),
      applyRedir_redir_in_of cmd r (h r (List.mem_cons_self r rs))]

theorem applyRedir_redir_out_of (cmd : Command) (r : RedirKind × Str)
    (h : r.1 = RedirKind.rin) : (applyRedir cmd r).redir_out = cmd.redir_out := by
  obtain ⟨k, f⟩ := r
  cases k with
  | rin => simp [applyRedir]
  | rout => exact absurd h (by simp)
  | rapp => exact absurd h (by simp)

theorem applyRedirs_redir_out_of (cmd : Command) (rs : List (RedirKind × Str))
    (h : ∀ r ∈ rs, r.1 = RedirKind.rin) :
    (applyRedirs cmd rs).redir_out = cmd.redir_out := by
  induction rs generalizing cmd with
  | nil => rfl
  | cons r rs ih =>
    rw [applyRedirs_cons, ih _ (fun x hx => h x (List.mem_cons_of_mem r hx)),
      applyRedir_redir_out_of cmd r (h r (List.mem_cons_self r rs))]

theorem stageNode_redir_in_of (ia : Bool) (st : Stage) (amp : Bool)
    (pipe : Option Command) (h : ∀ r ∈ st.redirs, r.1 ≠ RedirKind.rin) :
    (stageNode ia st amp pipe).redir_in = none := by
  cases pipe <;> cases amp <;>
    simp [stageNode, applyRedirs_redir_in_of _ _ h]

theorem stageNode_redir_out_of (ia : Bool) (st : Stage) (amp : Bool)
    (pipe : Option Command) (h : ∀ r ∈ st.redirs, r.1 = RedirKind.rin) :
    (stageNode ia st amp pipe).redir_out = none := by
  cases pipe <;> cases amp <;>
    simp [stageNode, applyRedirs_redir_out_of _ _ h]

theorem stageNode_bg (ia : Bool) (st : Stage) (amp : Bool)
    (pipe : Option Command) : (stageNode ia st amp pipe).bg = amp := by
  cases pipe <;> cases amp <;> simp [stageNode, applyRedirs_bg]

/-- Every stage node of a well-formed chain without `<` redirections has no
`redir_in`. -/
theorem chainOf_all_redir_in_none (ia : Bool) :
    ∀ (rest : List Stage) (st : Stage) (amp1 amp2 : Bool),
      (∀ r ∈ st.redirs, r.1 ≠ RedirKind.rin) →
      (∀ s ∈ rest, ∀ r ∈ s.redirs, r.1 ≠ RedirKind.rin) →
      ∀ x ∈ chainStages (chainOf ia st rest amp1 amp2), x.redir_in = none := by
  intro rest
  induction rest with
  | nil =>
    intro st amp1 amp2 hst _ x hx
    rw [chainOf, chainStages_of_pipe_none _ (stageNode_pipe_to_none ia st _)] at hx
    rcases List.mem_singleton.mp hx with rfl
    exact stageNode_redir_in_of ia st _ _ hst
  | cons st2 rest' ih =>
    intro st amp1 amp2 hst hrest x hx
    rw [chainOf, chainStages_of_pipe_some _ _ (stageNode_pipe_to_some ia st _ _)] at hx
    rcases List.mem_cons.mp hx with rfl | hx
    · exact stageNode_redir_in_of ia st _ _ hst
    · exact ih st2 false amp2 (hrest st2 (List.mem_cons_self st2 rest'))
        (fun s hs => hrest s (List.mem_cons_of_mem st2 hs)) x hx

/-- Every non-last stage node of a well-formed chain whose non-final stages
use only `<` redirections, with no interior `&`, has no `redir_out` and no
background flag. -/
theorem chainOf_interior_clean (ia : Bool) :
    ∀ (rest : List Stage) (st : Stage) (amp2 : Bool),
      (∀ s ∈ (st :: rest).dropLast, ∀ r ∈ s.redirs, r.1 = RedirKind.rin) →
      ∀ x ∈ (chainStages (chainOf ia st rest false amp2)).dropLast,
        x.redir_out = none ∧ x.bg = false := by
  intro rest
  induction rest with
  | nil =>
    intro st amp2 _ x hx
    rw [chainOf, chainStages_of_pipe_none _ (stageNode_pipe_to_none ia st _)] at hx
    simp at hx
  | cons st2 rest' ih =>
    intro st amp2 hclean x hx
    rw [chainOf, chainStages_of_pipe_some _ _ (stageNode_pipe_to_some ia st _ _)] at hx
    have hne := chainStages_ne_nil (chainOf ia st2 rest' false amp2)
    rcases hcs : chainStages (chainOf ia st2 rest' false amp2) with _ | ⟨y, ys⟩
    · exact absurd hcs hne
    · rw [hcs] at hx
      have hx' : x ∈ stageNode ia st false
          (some (chainOf ia st2 rest' false amp2)) :: (y :: ys).dropLast := by
        simpa [List.dropLast] using hx
      rcases List.mem_cons.mp hx' with rfl | hx'
      · constructor
        · refine stageNode_redir_out_of ia st _ _ ?_
          have := hclean st (by
            rw [show (st :: st2 :: rest').dropLast =
              st :: (st2 :: rest').dropLast from rfl]
            exact List.mem_cons_self _ _)
          exact this
        · exact stageNode_bg ia st _ _
      · have : x ∈ (chainStages (chainOf ia st2 rest' false amp2)).dropLast := by
          rw [hcs]
          exact hx'
        refine ih st2 amp2 ?_ x this
        intro s hs
        refine hclean s ?_
        rw [show (st :: st2 :: rest').dropLast =
          st :: (st2 :: rest').dropLast from rfl]
        exact List.mem_cons_of_mem st hs

/-! ### Rejection and safety inductions -/

theorem length_dropWhile_le {α : Type} (q : α → Bool) (l : List α) :
    (l.dropWhile q).length ≤ l.length := by
  induction l with
  | nil => simp [List.dropWhile]
  | cons a l ih =>
    by_cases hq : q a
    · rw [List.dropWhile_cons_of_pos hq]
      exact Nat.le_succ_of_le ih
    · rw [List.dropWhile_cons_of_neg hq]

theorem mem_dropWhile {α : Type} (q : α → Bool) (l : List α) :
    ∀ x ∈ l.dropWhile q, x ∈ l := by
  induction l with
  | nil => simp [List.dropWhile]
  | cons a l ih =>
    intro x hx
    by_cases hq : q a
    · rw [List.dropWhile_cons_of_pos hq] at hx
      exact List.mem_cons_of_mem a (ih x hx)
    · rw [List.dropWhile_cons_of_neg hq] at hx
      exact hx

theorem dropWhile_pattern (q : Token → Bool) :
    ∀ (l : List Token) (r : Token) (suf : List Token), q r = false →
      ∃ l2, (l ++ r :: suf).dropWhile q = l2 ++ r :: suf := by
  intro l
  induction l with
  | nil =>
    intro r suf hr
    refine ⟨[], ?_⟩
    rw [List.nil_append, List.dropWhile_cons_of_neg (by rw [hr]; simp)]
  | cons a l ih =>
    intro r suf hr
    by_cases hq : q a
    · rcases ih r suf hr with ⟨l2, hl2⟩
      exact ⟨l2, by rw [List.cons_append, List.dropWhile_cons_of_pos hq, hl2]⟩
    · exact ⟨a :: l, by rw [List.cons_append, List.dropWhile_cons_of_neg hq]⟩

theorem isIdentTok_false_of_ne (t : Token) (h : t.token_id ≠ TokenId.IDENT) :
    isIdentTok t = false := by
  simp [isIdentTok, h]

theorem isIdentTok_false_of_redir (t : Token) (h : isRedirTok t) :
    isIdentTok t = false := by
  rcases h with h | h | h <;>
    (apply isIdentTok_false_of_ne; rw [h]; intro hc; exact TokenId.noConfusion hc)

theorem loopGo_nil_flag (ia : Bool) (cmd : Command) : (loopGo ia cmd []).2 = false := by
  rw [loopGo_nil]
  split <;> rfl

theorem buildCommandsI_fst_none_of_loop (ia : Bool) (ts : List Token)
    (h : ∀ cmd, (loopGo ia cmd ts).1 = none) : (buildCommandsI ia ts).1 = none := by
  cases ts with
  | nil => rfl
  | cons cur rest =>
    rw [buildCommandsI_cons]
    by_cases hc : isIdentTok cur
    · rw [if_pos hc]
      exact h _
    · rw [if_neg hc]

theorem buildCommandsI_snd_false_of_loop (ia : Bool) (ts : List Token)
    (h : ∀ cmd, (loopGo ia cmd ts).2 = false) :
    (buildCommandsI ia ts).2 = false := by
  cases ts with
  | nil => rfl
  | cons cur rest =>
    rw [buildCommandsI_cons]
    by_cases hc : isIdentTok cur
    · rw [if_pos hc]
      exact h _
    · rw [if_neg hc]

theorem loopGo_pipe_of_none (ia : Bool) (cmd : Command) (cur : Token)
    (rest : List Token) (h : cur.token_id = TokenId.PIPE)
    (hn : (buildCommandsI ia rest).1 = none) :
    (loopGo ia cmd (cur :: rest)).1 = none := by
  rw [loopGo_pipe ia cmd cur rest h]
  rcases hB : buildCommandsI ia rest with ⟨res, fl⟩
  rw [hB] at hn
  simp only at hn
  subst hn
  rfl

theorem loopGo_pipe_flag (ia : Bool) (cmd : Command) (cur : Token)
    (rest : List Token) (h : cur.token_id = TokenId.PIPE) :
    (loopGo ia cmd (cur :: rest)).2 = (buildCommandsI ia rest).2 := by
  rw [loopGo_pipe ia cmd cur rest h]
  rcases hB : buildCommandsI ia rest with ⟨res, fl⟩
  cases res <;> rfl

/-- A token sequence ending in `|` (and containing no end marker) drives the
parser loop to failure, whatever the accumulated node is. -/
theorem loopGo_endsPipe :
    ∀ n (ts : List Token), ts.length ≤ n → noEnd ts → endsPipe ts →
      ∀ (ia : Bool) (cmd : Command), (loopGo ia cmd ts).1 = none := by
  intro n
  induction n with
  | zero =>
    intro ts hlen _ hep ia cmd
    rcases hep with ⟨pre, p, hts, _⟩
    subst hts
    simp at hlen
  | succ n ih =>
    intro ts hlen hnoend hep ia cmd
    rcases hep with ⟨pre, p, hts, hp⟩
    subst hts
    cases pre with
    | nil =>
      rw [List.nil_append]
      exact loopGo_pipe_of_none ia cmd p [] hp (by rw [buildCommandsI_nil])
    | cons q pre' =>
      rw [List.cons_append]
      have hlen' : (pre' ++ [p]).length ≤ n := by
        simp only [List.length_cons, List.length_append] at hlen ⊢
        omega
      have hnoend' : noEnd (pre' ++ [p]) :=
        fun t ht => hnoend t (List.mem_cons_of_mem q ht)
      have hep' : endsPipe (pre' ++ [p]) := ⟨pre', p, rfl, hp⟩
      have hqid : q.token_id ≠ TokenId.END := hnoend q (List.mem_cons_self _ _)
      rcases hq : q.token_id with _ | _ | _ | _ | _ | _ | _
      · -- IDENT
        rw [loopGo_ident ia cmd q _ hq]
        simp only
        rcases dropWhile_pattern isIdentTok pre' p []
            (isIdentTok_false_of_ne p (by rw [hp]; intro hc; exact TokenId.noConfusion hc))
          with ⟨l2, hl2⟩
        rw [hl2]
        refine ih (l2 ++ [p]) ?_ ?_ ⟨l2, p, rfl, hp⟩ ia _
        · have := length_dropWhile_le isIdentTok (pre' ++ [p])
          rw [hl2] at this
          omega
        · intro t ht
          have := mem_dropWhile isIdentTok (pre' ++ [p]) t (by rw [hl2]; exact ht)
          exact hnoend' t this
      · -- PIPE
        refine loopGo_pipe_of_none ia cmd q _ hq ?_
        refine buildCommandsI_fst_none_of_loop ia _ ?_
        intro cmd2
        exact ih _ hlen' hnoend' hep' ia cmd2
      · -- REDIR_IN
        cases pre' with
        | nil =>
          rw [show ([] : List Token) ++ [p] = [p] from rfl,
            loopGo_rin_cons ia cmd q p [] hq,
            if_neg (by
              rw [isIdentTok_false_of_ne p
                (by rw [hp]; intro hc; exact TokenId.noConfusion hc)]
              simp)]
        | cons w pre'' =>
          rw [List.cons_append, loopGo_rin_cons ia cmd q w _ hq]
          by_cases hw : isIdentTok w
          · rw [if_pos hw]
            refine ih (pre'' ++ [p]) ?_
              (fun t ht => hnoend' t (List.mem_cons_of_mem w ht))
              ⟨pre'', p, rfl, hp⟩ ia _
            simp only [List.length_cons, List.length_append] at hlen ⊢
            omega
          · rw [if_neg hw]
      · -- REDIR_OUT
        cases pre' with
        | nil =>
          rw [show ([] : List Token) ++ [p] = [p] from rfl,
            loopGo_rout_cons ia cmd q p [] hq,
            if_neg (by
              rw [isIdentTok_false_of_ne p
                (by rw [hp]; intro hc; exact TokenId.noConfusion hc)]
              simp)]
        | cons w pre'' =>
          rw [List.cons_append, loopGo_rout_cons ia cmd q w _ hq]
          by_cases hw : isIdentTok w
          · rw [if_pos hw]
            refine ih (pre'' ++ [p]) ?_
              (fun t ht => hnoend' t (List.mem_cons_of_mem w ht))
              ⟨pre'', p, rfl, hp⟩ ia _
            simp only [List.length_cons, List.length_append] at hlen ⊢
            omega
          · rw [if_neg hw]
      · -- APPEND_OUT
        cases pre' with
        | nil =>
          rw [show ([] : List Token) ++ [p] = [p] from rfl,
            loopGo_rapp_cons ia cmd q p [] hq,
            if_neg (by
              rw [isIdentTok_false_of_ne p
                (by rw [hp]; intro hc; exact TokenId.noConfusion hc)]
              simp)]
        | cons w pre'' =>
          rw [List.cons_append, loopGo_rapp_cons ia cmd q w _ hq]
          by_cases hw : isIdentTok w
          · rw [if_pos hw]
            refine ih (pre'' ++ [p]) ?_
              (fun t ht => hnoend' t (List.mem_cons_of_mem w ht))
              ⟨pre'', p, rfl, hp⟩ ia _
            simp only [List.length_cons, List.length_append] at hlen ⊢
            omega
          · rw [if_neg hw]
      · -- BG
        rw [loopGo_bg ia cmd q _ hq]
        exact ih _ hlen' hnoend' hep' ia _
      · -- END
        exact absurd hq hqid

theorem loopGo_redir_head_none (ia : Bool) (cmd : Command) (r : Token)
    (suf : List Token) (hr : isRedirTok r) (hsuf : headNotIdent suf) :
    (loopGo ia cmd (r :: suf)).1 = none := by
  cases suf with
  | nil =>
    rcases hr with h | h | h
    · rw [loopGo_rin_nil ia cmd r h]
    · rw [loopGo_rout_nil ia cmd r h]
    · rw [loopGo_rapp_nil ia cmd r h]
  | cons x suf' =>
    have hx : isIdentTok x = false :=
      isIdentTok_false_of_ne x (hsuf x rfl)
    rcases hr with h | h | h
    · rw [loopGo_rin_cons ia cmd r x suf' h, if_neg (by rw [hx]; simp)]
    · rw [loopGo_rout_cons ia cmd r x suf' h, if_neg (by rw [hx]; simp)]
    · rw [loopGo_rapp_cons ia cmd r x suf' h, if_neg (by rw [hx]; simp)]

/-- A token sequence containing a redirection operator immediately followed
by a non-identifier or by the end of input (and containing no end marker)
drives the parser loop to failure. -/
theorem loopGo_badRedir :
    ∀ n (ts : List Token), ts.length ≤ n → noEnd ts → badRedir ts →
      ∀ (ia : Bool) (cmd : Command), (loopGo ia cmd ts).1 = none := by
  intro n
  induction n with
  | zero =>
    intro ts hlen _ hbr ia cmd
    rcases hbr with ⟨l, r, suf, hts, _, _⟩
    subst hts
    simp at hlen
  | succ n ih =>
    intro ts hlen hnoend hbr ia cmd
    rcases hbr with ⟨l, r, suf, hts, hr, hsuf⟩
    subst hts
    cases l with
    | nil =>
      rw [List.nil_append]
      exact loopGo_redir_head_none ia cmd r suf hr hsuf
    | cons q l' =>
      rw [List.cons_append]
      have hlen' : (l' ++ r :: suf).length ≤ n := by
        simp only [List.length_cons, List.length_append] at hlen ⊢
        omega
      have hnoend' : noEnd (l' ++ r :: suf) :=
        fun t ht => hnoend t (List.mem_cons_of_mem q ht)
      have hbr' : badRedir (l' ++ r :: suf) := ⟨l', r, suf, rfl, hr, hsuf⟩
      have hqid : q.token_id ≠ TokenId.END := hnoend q (List.mem_cons_self _ _)
      rcases hq : q.token_id with _ | _ | _ | _ | _ | _ | _
      · -- IDENT
        rw [loopGo_ident ia cmd q _ hq]
        simp only
        rcases dropWhile_pattern isIdentTok l' r suf (isIdentTok_false_of_redir r hr)
          with ⟨l2, hl2⟩
        rw [hl2]
        refine ih (l2 ++ r :: suf) ?_ ?_ ⟨l2, r, suf, rfl, hr, hsuf⟩ ia _
        · have := length_dropWhile_le isIdentTok (l' ++ r :: suf)
          rw [hl2] at this
          omega
        · intro t ht
          exact hnoend' t (mem_dropWhile isIdentTok (l' ++ r :: suf) t
            (by rw [hl2]; exact ht))
      · -- PIPE
        refine loopGo_pipe_of_none ia cmd q _ hq ?_
        refine buildCommandsI_fst_none_of_loop ia _ ?_
        intro cmd2
        exact ih _ hlen' hnoend' hbr' ia cmd2
      · -- REDIR_IN
        cases l' with
        | nil =>
          rw [List.nil_append, loopGo_rin_cons ia cmd q r suf hq,
            if_neg (by rw [isIdentTok_false_of_redir r hr]; simp)]
        | cons w l'' =>
          rw [List.cons_append, loopGo_rin_cons ia cmd q w _ hq]
          by_cases hw : isIdentTok w
          · rw [if_pos hw]
            refine ih (l'' ++ r :: suf) ?_
              (fun t ht => hnoend' t (List.mem_cons_of_mem w ht))
              ⟨l'', r, suf, rfl, hr, hsuf⟩ ia _
            simp only [List.length_cons, List.length_append] at hlen ⊢
            omega
          · rw [if_neg hw]
      · -- REDIR_OUT
        cases l' with
        | nil =>
          rw [List.nil_append, loopGo_rout_cons ia cmd q r suf hq,
            if_neg (by rw [isIdentTok_false_of_redir r hr]; simp)]
        | cons w l'' =>
          rw [List.cons_append, loopGo_rout_cons ia cmd q w _ hq]
          by_cases hw : isIdentTok w
          · rw [if_pos hw]
            refine ih (l'' ++ r :: suf) ?_
              (fun t ht => hnoend' t (List.mem_cons_of_mem w ht))
              ⟨l'', r, suf, rfl, hr, hsuf⟩ ia _
            simp only [List.length_cons, List.length_append] at hlen ⊢
            omega
          · rw [if_neg hw]
      · -- APPEND_OUT
        cases l' with
        | nil =>
          rw [List.nil_append, loopGo_rapp_cons ia cmd q r suf hq,
            if_neg (by rw [isIdentTok_false_of_redir r hr]; simp)]
        | cons w l'' =>
          rw [List.cons_append, loopGo_rapp_cons ia cmd q w _ hq]
          by_cases hw : isIdentTok w
          · rw [if_pos hw]
            refine ih (l'' ++ r :: suf) ?_
              (fun t ht => hnoend' t (List.mem_cons_of_mem w ht))
              ⟨l'', r, suf, rfl, hr, hsuf⟩ ia _
            simp only [List.length_cons, List.length_append] at hlen ⊢
            omega
          · rw [if_neg hw]
      · -- BG
        rw [loopGo_bg ia cmd q _ hq]
        exact ih _ hlen' hnoend' hbr' ia _
      · -- END
        exact absurd hq hqid

/-- When the token sequence does not end in an identifier, the parser loop
never reads the front of an empty vector. -/
theorem loopGo_noOob :
    ∀ n (ts : List Token), ts.length ≤ n → endsNonIdent ts →
      ∀ (ia : Bool) (cmd : Command), (loopGo ia cmd ts).2 = false := by
  intro n
  induction n with
  | zero =>
    intro ts hlen hni ia cmd
    rcases hni with ⟨pre, x, hts, _⟩
    subst hts
    simp at hlen
  | succ n ih =>
    intro ts hlen hni ia cmd
    rcases hni with ⟨pre, x, hts, hx⟩
    subst hts
    have hxid : isIdentTok x = false := isIdentTok_false_of_ne x hx
    cases pre with
    | nil =>
      rw [List.nil_append]
      rcases hq : x.token_id with _ | _ | _ | _ | _ | _ | _
      · exact absurd hq hx
      · rw [loopGo_pipe_flag ia cmd x [] hq, buildCommandsI_nil]
      · rw [loopGo_rin_nil ia cmd x hq]
      · rw [loopGo_rout_nil ia cmd x hq]
      · rw [loopGo_rapp_nil ia cmd x hq]
      · rw [loopGo_bg ia cmd x [] hq]
        exact loopGo_nil_flag ia _
      · rw [loopGo_end ia cmd x [] hq]
    | cons q pre' =>
      rw [List.cons_append]
      have hlen' : (pre' ++ [x]).length ≤ n := by
        simp only [List.length_cons, List.length_append] at hlen ⊢
        omega
      have hni' : endsNonIdent (pre' ++ [x]) := ⟨pre', x, rfl, hx⟩
      rcases hq : q.token_id with _ | _ | _ | _ | _ | _ | _
      · -- IDENT
        rw [loopGo_ident ia cmd q _ hq]
        simp only
        rcases dropWhile_pattern isIdentTok pre' x [] hxid with ⟨l2, hl2⟩
        have hemp : (pre' ++ [x]).isEmpty = false := by
          cases pre' <;> rfl
        have hdw : ((pre' ++ [x]).dropWhile isIdentTok).isEmpty = false := by
          rw [hl2]
          cases l2 <;> rfl
        rw [hemp, hdw, hl2]
        have hflag := ih (l2 ++ [x]) (by
            have := length_dropWhile_le isIdentTok (pre' ++ [x])
            rw [hl2] at this
            omega)
          ⟨l2, x, rfl, hx⟩ ia
          (cmd.setProgArgs q.str
            (q.str :: ((pre' ++ [x]).takeWhile isIdentTok).map Token.str))
        rw [hflag]
        simp
      · -- PIPE
        rw [loopGo_pipe_flag ia cmd q _ hq]
        refine buildCommandsI_snd_false_of_loop ia _ ?_
        intro cmd2
        exact ih _ hlen' hni' ia cmd2
      · -- REDIR_IN
        cases pre' with
        | nil =>
          rw [List.nil_append, loopGo_rin_cons ia cmd q x [] hq,
            if_neg (by rw [hxid]; simp)]
        | cons w pre'' =>
          rw [List.cons_append, loopGo_rin_cons ia cmd q w _ hq]
          by_cases hw : isIdentTok w
          · rw [if_pos hw]
            cases pre'' with
            | nil =>
              refine ih [x] ?_ ⟨[], x, rfl, hx⟩ ia _
              simp only [List.length_cons, List.length_append,
                List.length_nil] at hlen' ⊢
              omega
            | cons v pre3 =>
              refine ih (v :: pre3 ++ [x]) ?_ ⟨v :: pre3, x, rfl, hx⟩ ia _
              simp only [List.length_cons, List.length_append] at hlen ⊢
              omega
          · rw [if_neg hw]
      · -- REDIR_OUT
        cases pre' with
        | nil =>
          rw [List.nil_append, loopGo_rout_cons ia cmd q x [] hq,
            if_neg (by rw [hxid]; simp)]
        | cons w pre'' =>
          rw [List.cons_append, loopGo_rout_cons ia cmd q w _ hq]
          by_cases hw : isIdentTok w
          · rw [if_pos hw]
            cases pre'' with
            | nil =>
              refine ih [x] ?_ ⟨[], x, rfl, hx⟩ ia _
              simp only [List.length_cons, List.length_append,
                List.length_nil] at hlen' ⊢
              omega
            | cons v pre3 =>
              refine ih (v :: pre3 ++ [x]) ?_ ⟨v :: pre3, x, rfl, hx⟩ ia _
              simp only [List.length_cons, List.length_append] at hlen ⊢
              omega
          · rw [if_neg hw]
      · -- APPEND_OUT
        cases pre' with
        | nil =>
          rw [List.nil_append, loopGo_rapp_cons ia cmd q x [] hq,
            if_neg (by rw [hxid]; simp)]
        | cons w pre'' =>
          rw [List.cons_append, loopGo_rapp_cons ia cmd q w _ hq]
          by_cases hw : isIdentTok w
          · rw [if_pos hw]
            cases pre'' with
            | nil =>
              refine ih [x] ?_ ⟨[], x, rfl, hx⟩ ia _
              simp only [List.length_cons, List.length_append,
                List.length_nil] at hlen' ⊢
              omega
            | cons v pre3 =>
              refine ih (v :: pre3 ++ [x]) ?_ ⟨v :: pre3, x, rfl, hx⟩ ia _
              simp only [List.length_cons, List.length_append] at hlen ⊢
              omega
          · rw [if_neg hw]
      · -- BG
        rw [loopGo_bg ia cmd q _ hq]
        exact ih _ hlen' hni' ia _
      · -- END
        rw [loopGo_end ia cmd q _ hq]

/-! ### The claims -/

/-- Claim C1: for every token sequence matching the grammar
`ident+ (redir ident)* (&)? (| ident+ (redir ident)*)* (&)?` the parser
`buildCommands` succeeds, and the resulting `Command` chain has exactly one
node per `ident+` group — equivalently, `k + 1` nodes for `k` pipe
operators. -/
theorem c1_wellformed_parse (ia : Bool) (st : Stage) (rest : List Stage)
    (amp1 amp2 : Bool) (h1 : st.idents ≠ []) (h2 : ∀ s ∈ rest, s.idents ≠ []) :
    ∃ c, buildCommands ia (flattenSeq st rest amp1 amp2) = some c ∧
      chainLength c = rest.length + 1 ∧
      chainLength c =
        (flattenSeq st rest amp1 amp2).countP
          (fun t => decide (t.token_id = TokenId.PIPE)) + 1 := by
  refine ⟨chainOf ia st rest amp1 amp2,
    parse_flattenSeq ia rest st amp1 amp2 h1 h2,
    chainLength_chainOf ia rest st amp1 amp2, ?_⟩
  rw [chainLength_chainOf ia rest st amp1 amp2,
    countP_pipe_flattenSeq rest st amp1 amp2]

/-- Witness for C1: `a < f | b | c g &` parses to a three-node chain. -/
theorem c1_witness :
    ∃ c, buildCommands false
        (flattenSeq ⟨[['a']], [(RedirKind.rin, ['f'])]⟩
          [⟨[['b']], []⟩, ⟨[['c'], ['g']], []⟩] false true) = some c ∧
      chainLength c = 3 ∧
      chainLength c =
        (flattenSeq ⟨[['a']], [(RedirKind.rin, ['f'])]⟩
          [⟨[['b']], []⟩, ⟨[['c'], ['g']], []⟩] false true).countP
          (fun t => decide (t.token_id = TokenId.PIPE)) + 1 := by
  have h := c1_wellformed_parse false ⟨[['a']], [(RedirKind.rin, ['f'])]⟩
    [⟨[['b']], []⟩, ⟨[['c'], ['g']], []⟩] false true
    (by simp)
    (by
      intro s hs
      rcases List.mem_cons.mp hs with rfl | hs
      · simp
      · rcases List.mem_cons.mp hs with rfl | hs
        · simp
        · simp at hs)
  simpa using h

/-- Claim C2: the parser returns failure for the empty sequence, for any
sequence whose first token is not an identifier, for any sequence ending in
a pipe, and for any sequence in which a redirection token is immediately
followed by a non-identifier or by the end of the sequence (token sequences
here are end-marker-free, as all `tokenList` results are, see
`tokenList_noEnd`). -/
theorem c2_parser_rejects (ia : Bool) :
    buildCommands ia [] = none ∧
    (∀ (t : Token) (ts : List Token), t.token_id ≠ TokenId.IDENT →
      buildCommands ia (t :: ts) = none) ∧
    (∀ (pre : List Token) (p : Token), p.token_id = TokenId.PIPE →
      noEnd (pre ++ [p]) → buildCommands ia (pre ++ [p]) = none) ∧
    (∀ (l : List Token) (r : Token) (suf : List Token), isRedirTok r →
      headNotIdent suf → noEnd (l ++ r :: suf) →
      buildCommands ia (l ++ r :: suf) = none) := by
  refine ⟨rfl, ?_, ?_, ?_⟩
  · intro t ts ht
    show (buildCommandsI ia (t :: ts)).1 = none
    rw [buildCommandsI_cons,
      if_neg (by rw [isIdentTok_false_of_ne t ht]; simp)]
  · intro pre p hp hne
    show (buildCommandsI ia (pre ++ [p])).1 = none
    exact buildCommandsI_fst_none_of_loop ia _
      (fun cmd => loopGo_endsPipe (pre ++ [p]).length _ le_rfl hne
        ⟨pre, p, rfl, hp⟩ ia cmd)
  · intro l r suf hr hsuf hne
    show (buildCommandsI ia (l ++ r :: suf)).1 = none
    exact buildCommandsI_fst_none_of_loop ia _
      (fun cmd => loopGo_badRedir (l ++ r :: suf).length _ le_rfl hne
        ⟨l, r, suf, rfl, hr, hsuf⟩ ia cmd)

/-- Witness for C2 at concrete rejected inputs: ``, `|`, `a |`, `a >`. -/
theorem c2_witness :
    buildCommands false [] = none ∧
    buildCommands false [Token.make TokenId.PIPE] = none ∧
    buildCommands false [Token.makeIdent ['a'], Token.make TokenId.PIPE] = none ∧
    buildCommands false [Token.makeIdent ['a'], Token.make TokenId.REDIR_OUT] = none := by
  obtain ⟨h1, h2, h3, h4⟩ := c2_parser_rejects false
  refine ⟨h1, h2 (Token.make TokenId.PIPE) [] (by simp [Token.make]), ?_, ?_⟩
  · have := h3 [Token.makeIdent ['a']] (Token.make TokenId.PIPE) rfl
      (by
        intro t ht
        rcases List.mem_cons.mp ht with rfl | ht
        · simp [Token.makeIdent]
        · rcases List.mem_cons.mp ht with rfl | ht
          · simp [Token.make]
          · simp at ht)
    simpa using this
  · have := h4 [Token.makeIdent ['a']] (Token.make TokenId.REDIR_OUT) []
      (Or.inr (Or.inl rfl)) headNotIdent_nil
      (by
        intro t ht
        rcases List.mem_cons.mp ht with rfl | ht
        · simp [Token.makeIdent]
        · rcases List.mem_cons.mp ht with rfl | ht
          · simp [Token.make]
          · simp at ht)
    simpa using this

/-- Claim C3 (code bug): for `a | b &` the `&` lands on the last stage
(`(lastCommand c).bg = true`), yet the driver's wait decision — line 457
checks `command->bg` on the ROOT node — is to wait (`driverWaits c = true`),
so the pipeline is NOT detached, contradicting the claim (and the comment at
lines 187-188 of the source). -/
theorem c3_bg_checked_on_root :
    ((buildCommands false [Token.makeIdent ['a'], Token.make TokenId.PIPE,
        Token.makeIdent ['b'], Token.make TokenId.BG]).map
      (fun c => ((lastCommand c).bg, driverWaits c))) = some (true, true) := by
  simp [buildCommands, buildCommandsI_cons, isIdentTok, loopGo_ident, loopGo_pipe,
    loopGo_bg, loopGo_nil, Command.init, Command.setProgArgs, Command.setBg,
    Command.setPipe, Token.makeIdent, Token.make, lastCommand, driverWaits,
    Command.bg, Command.pipe_to, Command.command]

/-- Counterexample to claim C4 as stated: `a | b < f` parses successfully
and the resulting chain's LAST stage (an element of the chain's tail)
carries `input_redirect = "f"` — the parser does not restrict
`input_redirect` to the first stage. -/
theorem c4_counterexample :
    ((buildCommands false [Token.makeIdent ['a'], Token.make TokenId.PIPE,
        Token.makeIdent ['b'], Token.make TokenId.REDIR_IN,
        Token.makeIdent ['f']]).map
      (fun c => (chainStages c).tail.map Command.redir_in)) =
      some [some ['f']] := by
  simp [buildCommands, buildCommandsI_cons, isIdentTok, loopGo_ident, loopGo_pipe,
    loopGo_rin_cons, loopGo_nil, Command.init, Command.setProgArgs, Command.setBg,
    Command.setPipe, Command.setRedirIn, Token.makeIdent, Token.make, chainStages,
    Command.redir_in, Command.pipe_to, Command.command]

/-- Claim C4, amended: the parser records redirections and `&` on whichever
stage's segment contains them and enforces no placement restriction; the
placement invariant does hold for every chain parsed from a token sequence
whose non-first stages contain no `<` redirection, whose non-last stages
contain only `<` redirections, and whose only `&` (if any) is final. -/
theorem c4_placement_conforming (ia : Bool) (st : Stage) (rest : List Stage)
    (amp2 : Bool) (h1 : st.idents ≠ []) (h2 : ∀ s ∈ rest, s.idents ≠ [])
    (hin : ∀ s ∈ rest, ∀ r ∈ s.redirs, r.1 ≠ RedirKind.rin)
    (hout : ∀ s ∈ (st :: rest).dropLast, ∀ r ∈ s.redirs, r.1 = RedirKind.rin) :
    ∃ c, buildCommands ia (flattenSeq st rest false amp2) = some c ∧
      (∀ x ∈ (chainStages c).tail, x.redir_in = none) ∧
      (∀ x ∈ (chainStages c).dropLast, x.redir_out = none ∧ x.bg = false) := by
  refine ⟨chainOf ia st rest false amp2,
    parse_flattenSeq ia rest st false amp2 h1 h2, ?_,
    chainOf_interior_clean ia rest st amp2 hout⟩
  cases rest with
  | nil =>
    intro x hx
    rw [chainOf, chainStages_of_pipe_none _ (stageNode_pipe_to_none ia st _)] at hx
    simp at hx
  | cons st2 rest' =>
    intro x hx
    rw [chainOf, chainStages_of_pipe_some _ _ (stageNode_pipe_to_some ia st _ _)] at hx
    simp only [List.tail_cons] at hx
    exact chainOf_all_redir_in_none ia rest' st2 false amp2
      (hin st2 (List.mem_cons_self st2 rest'))
      (fun s hs => hin s (List.mem_cons_of_mem st2 hs)) x hx

/-- Witness for the amended C4: `a < f | b > g &` satisfies the placement
invariant. -/
theorem c4_witness :
    ∃ c, buildCommands false
        (flattenSeq ⟨[['a']], [(RedirKind.rin, ['f'])]⟩
          [⟨[['b']], [(RedirKind.rout, ['g'])]⟩] false true) = some c ∧
      (∀ x ∈ (chainStages c).tail, x.redir_in = none) ∧
      (∀ x ∈ (chainStages c).dropLast, x.redir_out = none ∧ x.bg = false) := by
  refine c4_placement_conforming false ⟨[['a']], [(RedirKind.rin, ['f'])]⟩
    [⟨[['b']], [(RedirKind.rout, ['g'])]⟩] true (by simp) ?_ ?_ ?_
  · intro s hs
    rcases List.mem_cons.mp hs with rfl | hs
    · simp
    · simp at hs
  · intro s hs
    rcases List.mem_cons.mp hs with rfl | hs
    · intro r hr
      rcases List.mem_cons.mp hr with rfl | hr
      · simp
      · simp at hr
    · simp at hs
  · intro s hs
    have : s = (⟨[['a']], [(RedirKind.rin, ['f'])]⟩ : Stage) := by
      simpa [List.dropLast] using hs
    subst this
    intro r hr
    rcases List.mem_cons.mp hr with rfl | hr
    · rfl
    · simp at hr

/-- Claim C5 (code bug): `Command`'s constructor never initializes `append`
and the `REDIR_OUT` arm of the parser does not set it to false, so for
`cmd > f` the drain's `open` uses the indeterminate initial value: if that
value is `true`, the file is opened with `O_APPEND` (second conjunct shows
the intended `O_TRUNC` when the value happens to be `false`). -/
theorem c5_append_uninitialized :
    ((buildCommands true [Token.makeIdent ['c'], Token.make TokenId.REDIR_OUT,
        Token.makeIdent ['f']]).map driverOutputOpen) =
      some (some ⟨['f'], true, true, true, false, true, true, false⟩) ∧
    ((buildCommands false [Token.makeIdent ['c'], Token.make TokenId.REDIR_OUT,
        Token.makeIdent ['f']]).map driverOutputOpen) =
      some (some ⟨['f'], true, true, false, true, true, true, false⟩) := by
  constructor <;>
    simp [buildCommands, buildCommandsI_cons, isIdentTok, loopGo_ident,
      loopGo_rout_cons, loopGo_nil, Command.init, Command.setProgArgs,
      Command.setRedirOut, Token.makeIdent, Token.make, driverOutputOpen,
      lastCommand, Command.redir_out, Command.append, Command.command]

/-- Claim C6 (code bug): on input `>` the lexer returns `REDIR_OUT` as the
claim demands, but only after reading `input.front()` of the already-empty
remainder (flag `true`) — the required end-of-input check before peeking is
missing; `>>` is correctly lexed to `APPEND_OUT` consuming both characters
without any such read. -/
theorem c6_lexer_peeks_past_end :
    buildTokenI ['>'] = (Token.make TokenId.REDIR_OUT, [], true) ∧
    buildTokenI ['>', '>'] = (Token.make TokenId.APPEND_OUT, [], false) ∧
    buildToken ['>'] = (Token.make TokenId.REDIR_OUT, []) :=
  ⟨rfl, rfl, rfl⟩

/-- Counterexample to claim C7 as stated: on the token sequence of
`echo hi` — non-empty, starting (and ending) with an identifier — the
argument-collection loop DOES read `front()` of the emptied token vector
(instrumentation flag `true`). -/
theorem c7_counterexample :
    (buildCommandsI false [Token.makeIdent ['e', 'c', 'h', 'o'],
      Token.makeIdent ['h', 'i']]).2 = true := by
  simp [buildCommandsI_cons, isIdentTok, loopGo_ident, loopGo_nil,
    Command.init, Command.setProgArgs, Token.makeIdent]

/-- Claim C7, amended: the parser reads `front()` of an empty vector exactly
when a stage's trailing token is an identifier consumed as program name or
argument; whenever the token sequence ends in a non-identifier token, all
vector accesses stay in bounds. -/
theorem c7_no_oob_when_last_not_ident (ia : Bool) (ts : List Token)
    (h : endsNonIdent ts) : (buildCommandsI ia ts).2 = false :=
  buildCommandsI_snd_false_of_loop ia ts
    (fun cmd => loopGo_noOob ts.length ts le_rfl h ia cmd)

/-- Witness for the amended C7: `a &` triggers no empty-vector read. -/
theorem c7_witness :
    (buildCommandsI false [Token.makeIdent ['a'], Token.make TokenId.BG]).2 = false :=
  c7_no_oob_when_last_not_ident false _
    ⟨[Token.makeIdent ['a']], Token.make TokenId.BG, rfl, by simp [Token.make]⟩

/-- Claim C8: round-trip tokenization — joining the literal forms of the
tokens of any input with single spaces and re-tokenizing yields the same
token sequence (proved for every input string, which covers the claimed
class of operator/word inputs). -/
theorem c8_roundtrip (s : Str) :
    tokenList (specRejoin (tokenList s)) = tokenList s :=
  tokenList_specRejoin (tokenList s) (tokenList_valid s)

/-- Claim C9: the tokenizer driver terminates — the lexer consumes at least
one character of any non-empty input, returns `END` on empty input, and an
`END` result stops `tokenList` without appending a token. -/
theorem c9_tokenizer_terminates (s : Str) :
    (s ≠ [] → (buildToken s).2.length < s.length) ∧
    (s = [] → buildToken s = (Token.make TokenId.END, [])) ∧
    ((buildToken s).1.token_id = TokenId.END → tokenList s = []) := by
  refine ⟨buildToken_progress s, ?_, ?_⟩
  · intro h
    subst h
    rfl
  · intro h
    rw [tokenList_step, if_pos h]

/-- Witness for C9 at concrete inputs. -/
theorem c9_witness :
    (buildToken ['a']).2.length < (['a'] : Str).length ∧
    buildToken [] = (Token.make TokenId.END, []) ∧
    tokenList [' '] = [] :=
  ⟨(c9_tokenizer_terminates ['a']).1 (by simp),
   (c9_tokenizer_terminates []).2.1 rfl,
   (c9_tokenizer_terminates [' ']).2.2 rfl⟩

/-- Counterexample to claim C10 as stated: for `a` an identifier with
payload `"x"` and `b` an identifier token with no payload (constructible via
`Token::make(IDENT)`), `a == b` holds although the payloads differ (one
present, one absent), and `b == a` fails — equality is neither structural
nor symmetric on all tokens. -/
theorem c10_counterexample :
    tokenEq ⟨TokenId.IDENT, some ['x']⟩ ⟨TokenId.IDENT, none⟩ = true ∧
    tokenEq ⟨TokenId.IDENT, none⟩ ⟨TokenId.IDENT, some ['x']⟩ = false :=
  ⟨rfl, rfl⟩

/-- Claim C10, amended: on tokens whose payload is present exactly when the
kind is `IDENT` (all tokens the program builds), `operator==` is structural
— it holds iff the kinds are equal and the payloads are equal — and
symmetric. -/
theorem c10_structural_on_wellformed (a b : Token)
    (ha : a.token_id = TokenId.IDENT ↔ a.str ≠ none)
    (hb : b.token_id = TokenId.IDENT ↔ b.str ≠ none) :
    (tokenEq a b = true ↔ (a.token_id = b.token_id ∧ a.str = b.str)) ∧
    tokenEq a b = tokenEq b a := by
  obtain ⟨ia2, sa⟩ := a
  obtain ⟨ib2, sb⟩ := b
  simp only at ha hb
  cases sa with
  | none =>
    cases sb with
    | none =>
      refine ⟨by simp [tokenEq], ?_⟩
      by_cases hii : ia2 = ib2
      · subst hii
        rfl
      · have hii2 : ¬ib2 = ia2 := fun h => hii h.symm
        simp [tokenEq, hii, hii2]
    | some t =>
      have hia : ia2 ≠ TokenId.IDENT := fun hc => (ha.mp hc) rfl
      have hib : ib2 = TokenId.IDENT := hb.mpr (by simp)
      have hii2 : ¬ib2 = ia2 := by
        rw [hib]
        exact fun h => hia h.symm
      exact ⟨by simp [tokenEq], by simp [tokenEq, hii2]⟩
  | some s =>
    cases sb with
    | none =>
      have hia : ia2 = TokenId.IDENT := ha.mpr (by simp)
      have hib : ib2 ≠ TokenId.IDENT := fun hc => (hb.mp hc) rfl
      have hii : ¬ia2 = ib2 := fun h => hib (by rw [← h]; exact hia)
      have hii2 : ¬ib2 = ia2 := fun h => hii h.symm
      exact ⟨by simp [tokenEq, hii], by simp [tokenEq, hii, hii2]⟩
    | some t =>
      refine ⟨by simp [tokenEq], ?_⟩
      by_cases hii : ia2 = ib2
      · subst hii
        by_cases hst : s = t
        · subst hst
          rfl
        · have hst2 : ¬t = s := fun h => hst h.symm
          simp [tokenEq, hst, hst2]
      · have hii2 : ¬ib2 = ia2 := fun h => hii h.symm
        simp [tokenEq, hii, hii2]

/-- Witness for the amended C10 on two well-formed tokens. -/
theorem c10_witness :
    (tokenEq (Token.makeIdent ['x']) (Token.make TokenId.PIPE) = true ↔
      ((Token.makeIdent ['x']).token_id = (Token.make TokenId.PIPE).token_id ∧
        (Token.makeIdent ['x']).str = (Token.make TokenId.PIPE).str)) ∧
    tokenEq (Token.makeIdent ['x']) (Token.make TokenId.PIPE) =
      tokenEq (Token.make TokenId.PIPE) (Token.makeIdent ['x']) :=
  c10_structural_on_wellformed (Token.makeIdent ['x']) (Token.make TokenId.PIPE)
    (by simp [Token.makeIdent])
    (by
      simp only [Token.make]
      constructor
      · intro hc
        exact absurd hc (by intro h; exact TokenId.noConfusion h)
      · intro hc
        exact absurd rfl hc)
